import Mathlib

/-!
Verification development for the blaze native engine core:
the Spark-compatible partition hash (`spark_hash.rs`), the columnar batch
codec (`batch_serde.rs`), the cached filter/projection evaluator
(`cached_exprs_evaluator.rs`), plan/expression binding (`from_proto.rs`)
and the `spark_null_if_zero` scalar function.

Rust machine integers are embedded as `Nat` reduced modulo `2 ^ 32`
(`u32`/`i32` arithmetic) or as unbounded `Int` with explicit
two's-complement reinterpretation where the source casts.
-/

namespace Blaze

/-! ## Shared little-endian-within-byte bit packing

`bitvec::BitVec<u8>` (default `Lsb0` ordering, used for the per-column
nullable bits in `batch_serde.rs`) and arrow's validity bitmaps
(`arrow::util::bit_util`, `BIT_MASK = [1,2,4,...]`) both store logical bit
`i` as bit `i % 8` (least significant first) of byte `i / 8`. -/

/-- Pack up to eight bits into one byte, least significant bit first. -/
def byteOfBits (bits : List Bool) : Nat :=
  bits.foldr (fun b acc => 2 * acc + (if b then 1 else 0)) 0

/-- Pack a logical bit sequence into bytes, eight bits per byte,
least-significant-bit-first within each byte, `ceil (n / 8)` bytes total. -/
def packLsb0 (bits : List Bool) : List Nat :=
  (List.range ((bits.length + 7) / 8)).map
    (fun k => byteOfBits ((bits.drop (8 * k)).take 8))

/-- Read logical bit `i` from a packed byte sequence: bit `i % 8` of byte
`i / 8`, mirroring `bit_util::get_bit` and `BitVec<u8, Lsb0>` indexing. -/
def getBitLsb0 (bytes : List Nat) (i : Nat) : Bool :=
  Nat.testBit (bytes.getD (i / 8) 0) (i % 8)

theorem testBit_byteOfBits (l : List Bool) (k : Nat) :
    Nat.testBit (byteOfBits l) k = l.getD k false := by
  induction l generalizing k with
  | nil =>
    simp [byteOfBits, Nat.zero_testBit]
  | cons b bs ih =>
    have hval : byteOfBits (b :: bs) = 2 * byteOfBits bs + (if b then 1 else 0) := rfl
    cases k with
    | zero =>
      rw [hval, Nat.testBit_zero]
      cases b <;> simp <;> omega
    | succ k =>
      rw [hval, Nat.testBit_add_one]
      have hdiv : (2 * byteOfBits bs + (if b then 1 else 0)) / 2 = byteOfBits bs := by
        cases b <;> simp <;> omega
      rw [hdiv]
      simpa using ih k

theorem length_packLsb0 (bits : List Bool) :
    (packLsb0 bits).length = (bits.length + 7) / 8 := by
  simp [packLsb0]

theorem getBitLsb0_packLsb0 (bits : List Bool) (i : Nat) (h : i < bits.length) :
    getBitLsb0 (packLsb0 bits) i = bits.getD i false := by
  have hk : i / 8 < (bits.length + 7) / 8 := by omega
  have hbyte : (packLsb0 bits).getD (i / 8) 0
      = byteOfBits ((bits.drop (8 * (i / 8))).take 8) := by
    simp only [packLsb0, List.getD, List.get?_eq_getElem?, List.getElem?_map,
      List.getElem?_range hk]
    rfl
  unfold getBitLsb0
  rw [hbyte, testBit_byteOfBits]
  have hm8 : i % 8 < 8 := Nat.mod_lt _ (by omega)
  simp only [List.getD, List.get?_eq_getElem?, List.getElem?_take_of_lt hm8,
    List.getElem?_drop]
  have hidx : 8 * (i / 8) + i % 8 = i := by omega
  rw [hidx]

end Blaze

namespace Blaze.SparkHash

/-! ## `spark_hash.rs`: Spark-compatible MurmurHash3-x86-32 and `pmod`

Faithful embedding of `spark_compatible_murmur3_hash`, the `Int8` arm of
`create_hashes` (`hash_array_primitive!(Int8Array, col, i32, ...)`) and
`pmod`. All 32-bit two's-complement arithmetic is carried out on `Nat`
modulo `2 ^ 32`; `i32` multiplication, rotation and addition agree with
`u32` arithmetic modulo `2 ^ 32`. -/

/-- Modulus for 32-bit wrapping arithmetic. -/
def U32 : Nat := 4294967296

/-- Rotate a 32-bit value left by `n` (for `0 < n < 32`). -/
def rotl32 (x n : Nat) : Nat := ((x <<< n) + (x >>> (32 - n))) % U32

/-- `mix_k1` from `spark_compatible_murmur3_hash`. -/
def mix_k1 (k : Nat) : Nat :=
  let k1 := (k * 0xcc9e2d51) % U32
  let k2 := rotl32 k1 15
  (k2 * 0x1b873593) % U32

/-- `mix_h1` from `spark_compatible_murmur3_hash`. -/
def mix_h1 (h k : Nat) : Nat :=
  let h1 := h ^^^ k
  let h2 := rotl32 h1 13
  (h2 * 5 + 0xe6546b64) % U32

/-- `fmix` from `spark_compatible_murmur3_hash`. -/
def fmix (h len : Nat) : Nat :=
  let h1 := h ^^^ len
  let h2 := h1 ^^^ (h1 >>> 16)
  let h3 := (h2 * 0x85ebca6b) % U32
  let h4 := h3 ^^^ (h3 >>> 13)
  let h5 := (h4 * 0xc2b2ae35) % U32
  h5 ^^^ (h5 >>> 16)

/-- Group a byte list into little-endian 32-bit words (trailing bytes that
do not fill a word are ignored, as in `hash_bytes_by_int` which is applied
to the 4-byte-aligned part only). -/
def chunk4LE : List Nat → List Nat
  | b0 :: b1 :: b2 :: b3 :: rest =>
      (b0 + 256 * b1 + 65536 * b2 + 16777216 * b3) :: chunk4LE rest
  | _ => []

/-- Sign extension of a byte to `i32`, reinterpreted as `u32`
(`*data.get_unchecked(i) as i8 as i32`). -/
def sext8 (b : Nat) : Nat := if b % 256 < 128 then b % 256 else U32 - 256 + b % 256

/-- `spark_compatible_murmur3_hash` over a byte list with a `u32` seed:
mixes the 4-byte-aligned prefix as little-endian `i32` words, then each
remaining byte sign-extended, then finalizes with `fmix` over the length. -/
def spark_compatible_murmur3_hash (data : List Nat) (seed : Nat) : Nat :=
  let len := data.length
  let lenAligned := len - len % 4
  let h1 := (chunk4LE (data.take lenAligned)).foldl (fun h w => mix_h1 h (mix_k1 w)) seed
  let h2 := (data.drop lenAligned).foldl (fun h b => mix_h1 h (mix_k1 (sext8 b))) h1
  fmix h2 len

/-- Two's-complement `u32` bit pattern of an integer (`as u32` / low 32 bits). -/
def toU32 (v : Int) : Nat := (v % (U32 : Int)).toNat

/-- Little-endian bytes of a 32-bit word (`i32::to_le_bytes`). -/
def leBytes4 (w : Nat) : List Nat :=
  [w % 256, w / 256 % 256, w / 65536 % 256, w / 16777216 % 256]

/-- The `Int8` arm of `create_hashes`
(`hash_array_primitive!(Int8Array, col, i32, hashes_buffer)`): each non-null
value is widened to `i32`, encoded as little-endian bytes and mixed into the
row's running hash; null rows leave the running hash unchanged. The number
of hashed rows is bounded by the hash buffer's length. -/
def create_hashes_int8 : List (Option Int) → List Nat → List Nat
  | _, [] => []
  | [], hs => hs
  | v :: vs, h :: hs =>
      (match v with
       | none => h
       | some x => spark_compatible_murmur3_hash (leBytes4 (toU32 x)) h)
      :: create_hashes_int8 vs hs

/-- Reinterpret the low 32 bits of a `Nat` as a signed `i32` value
(`as i32` on a `u32`, or truncating cast from `usize`). -/
def toI32 (h : Nat) : Int :=
  if h % U32 < 2147483648 then ((h % U32 : Nat) : Int)
  else ((h % U32 : Nat) : Int) - ((U32 : Nat) : Int)

/-- `pmod(hash: u32, n: usize) -> usize`: both arguments are cast to `i32`
(a truncating cast for `n`), `%` is Rust's truncated remainder
(`Int.tmod`), and a negative remainder is shifted into `[0, n)`. -/
def pmod (hash : Nat) (n : Nat) : Nat :=
  let h : Int := toI32 hash
  let m : Int := toI32 n
  let r : Int := h.tmod m
  let result : Int := if r < 0 then (r + m).tmod m else r
  result.toNat

theorem tmod_lower_bound (a b : Int) (hb : 0 < b) : -b < a.tmod b := by
  rcases le_or_lt 0 a with ha | ha
  · have h0 : (0 : Int) ≤ a.tmod b := Int.tmod_nonneg b ha
    omega
  · cases a with
    | ofNat n => simp at ha; omega
    | negSucc m =>
      cases b with
      | negSucc k =>
        have := Int.negSucc_lt_zero k
        omega
      | ofNat k =>
        have hk : 0 < k := by
          rcases Nat.eq_zero_or_pos k with h | h
          · subst h; simp at hb
          · exact h
        have hred : (Int.negSucc m).tmod (Int.ofNat k) = -(((m + 1) % k : Nat) : Int) := rfl
        rw [hred]
        have hlt : (m + 1) % k < k := Nat.mod_lt _ hk
        have hofNat : (Int.ofNat k) = ((k : Nat) : Int) := rfl
        rw [hofNat] at hb ⊢
        omega

end Blaze.SparkHash

namespace Blaze

open SparkHash

/-- C1: with every running seed initialized to 42, the Spark-compatible
32-bit MurmurHash3 produces the spec's fixed vectors: hashing the UTF-8
bytes of `""`, `"a"`, `"ab"` yields 142593372, 1485273170 and -97053317
(as `i32`); `create_hashes` over the `Int8` column `[1,0,-1,127,-128]`
yields `[0xdea578e3, 0x379fae8f, 0xa0590e3d, 0x43b4d8ed, 0x422a1365]`;
and `pmod` with `n = 200` maps `[0x99f0149d, 0x9c67b85d, 0xc8008529,
0xa05b5d7b, 0xcd1e64fb]` to `[69, 5, 193, 171, 115]`. -/
theorem hash_fixed_vectors :
    spark_compatible_murmur3_hash [] 42 = 142593372 ∧
    spark_compatible_murmur3_hash [97] 42 = 1485273170 ∧
    toI32 (spark_compatible_murmur3_hash [97, 98] 42) = -97053317 ∧
    create_hashes_int8 [some 1, some 0, some (-1), some 127, some (-128)]
        [42, 42, 42, 42, 42]
      = [0xdea578e3, 0x379fae8f, 0xa0590e3d, 0x43b4d8ed, 0x422a1365] ∧
    [0x99f0149d, 0x9c67b85d, 0xc8008529, 0xa05b5d7b, 0xcd1e64fb].map (pmod · 200)
      = [69, 5, 193, 171, 115] := by
  refine ⟨by decide, by decide, by decide, by decide, by decide⟩

/-- C7: for every hash value and every partition count `n` that is
representable as a positive `i32`, `pmod hash n` equals the mathematical
(`Euclidean`) remainder of the hash interpreted as `i32`, hence lies in
`[0, n)`: it is never negative (it is a `Nat`) and strictly less than `n`. -/
theorem pmod_range (hash n : Nat) (hn : 0 < n) (hn32 : n < 2147483648) :
    pmod hash n < n ∧ (pmod hash n : Int) = toI32 hash % (n : Int) := by
  have hmU : n % U32 = n := Nat.mod_eq_of_lt (by unfold U32; omega)
  have hm : toI32 n = (n : Int) := by
    unfold toI32
    rw [hmU, if_pos hn32]
  have hnpos : (0 : Int) < (n : Int) := by exact_mod_cast hn
  obtain ⟨h, hh⟩ : ∃ h, toI32 hash = h := ⟨_, rfl⟩
  obtain ⟨r, hr⟩ : ∃ r, h.tmod (n : Int) = r := ⟨_, rfl⟩
  have hub : r < (n : Int) := hr ▸ Int.tmod_lt_of_pos h hnpos
  have hlb : -(n : Int) < r := hr ▸ tmod_lower_bound h (n : Int) hnpos
  have hcong : h % (n : Int) = r % (n : Int) := by
    have heq := Int.tmod_add_tdiv h (n : Int)
    rw [hr] at heq
    calc h % (n : Int) = (r + (n : Int) * h.tdiv (n : Int)) % (n : Int) := by rw [heq]
    _ = r % (n : Int) := Int.add_mul_emod_self_left r (n : Int) (h.tdiv (n : Int))
  have hresult : pmod hash n = (if r < 0 then r + (n : Int) else r).toNat := by
    simp only [pmod, hm, hh, hr]
    rcases lt_or_le r 0 with hneg | hpos
    · rw [if_pos hneg, if_pos hneg]
      have heq : (r + (n : Int)).tmod (n : Int) = r + (n : Int) :=
        Int.tmod_eq_of_lt (by omega) (by omega)
      rw [heq]
    · rw [if_neg (by omega), if_neg (by omega)]
  rw [hh]
  rcases lt_or_le r 0 with hneg | hpos
  · have hval : h % (n : Int) = r + (n : Int) := by
      rw [hcong]
      have heq : r % (n : Int) = (r + (n : Int)) % (n : Int) := by
        have := Int.add_mul_emod_self_left r (n : Int) 1
        simpa using this.symm
      rw [heq]
      exact Int.emod_eq_of_lt (by omega) (by omega)
    constructor
    · rw [hresult, if_pos hneg]
      omega
    · rw [hresult, if_pos hneg, hval, Int.toNat_of_nonneg (by omega)]
  · have hval : h % (n : Int) = r := by
      rw [hcong]
      exact Int.emod_eq_of_lt hpos hub
    constructor
    · rw [hresult, if_neg (by omega)]
      omega
    · rw [hresult, if_neg (by omega), hval, Int.toNat_of_nonneg hpos]

/-- Witness for C7 at a concrete input: `pmod 0x99f0149d 200 = 69 ∈ [0, 200)`. -/
theorem pmod_range_witness :
    0 < 200 ∧ 200 < 2147483648 ∧
      (pmod 2582680733 200 < 200 ∧
        (pmod 2582680733 200 : Int) = toI32 2582680733 % (200 : Int)) :=
  ⟨by decide, by decide, pmod_range 2582680733 200 (by decide) (by decide)⟩

end Blaze

namespace Blaze.Codec

/-! ## `batch_serde.rs`: per-column nullable bits

`write_batch` collects each field's nullable flag into a
`bitvec::BitVec<u8>` (default `Lsb0` bit ordering) and writes its backing
bytes; `read_batch` reads `(num_columns + 7) / 8` bytes back into a
`BitVec<u8>` and indexes it per column. -/

/-- The nullable-bits section emitted by `write_batch`: one bit per column
in `BitVec<u8, Lsb0>` order, i.e. least-significant-bit-first within each
byte, occupying `ceil (columns / 8)` bytes. -/
def write_nullables (nullables : List Bool) : List Nat := packLsb0 nullables

/-- How `read_batch` reads column `i`'s nullable flag back from the
nullable-bits bytes (`BitVec<u8>::from_vec` indexing). -/
def read_nullable (bytes : List Nat) (i : Nat) : Bool := getBitLsb0 bytes i

/-- Big-endian-within-byte packing of up to eight bits (claimed layout). -/
def byteOfBitsMsb (bits : List Bool) : Nat :=
  (bits.foldl (fun acc b => 2 * acc + (if b then 1 else 0)) 0) <<< (8 - bits.length)

/-- Refinement comparison definition following the claim's words, not the
source: bits packed big-endian-within-byte (first column in the most
significant bit of the first byte), `ceil (columns / 8)` bytes. -/
def packMsbClaim (bits : List Bool) : List Nat :=
  (List.range ((bits.length + 7) / 8)).map
    (fun k => byteOfBitsMsb ((bits.drop (8 * k)).take 8))

/-- C9 counterexample: for a single nullable column the code emits byte
`0x01` (bit in the least significant position), not the claimed `0x80`
(most significant position); in particular bit 7 of the emitted byte is
clear. -/
theorem nullable_bits_not_msb :
    write_nullables [true] = [1] ∧
    packMsbClaim [true] = [128] ∧
    write_nullables [true] ≠ packMsbClaim [true] ∧
    Nat.testBit ((write_nullables [true]).getD 0 0) 7 = false := by
  refine ⟨by decide, by decide, by decide, by decide⟩

/-- C9 (amended): `write_batch` emits exactly one nullability bit per
column, packed little-endian-within-byte (the first column in the least
significant bit of the first byte), occupying `ceil (columns / 8)` bytes,
and `read_batch` interprets the bits the same way. -/
theorem nullable_bits_lsb0 (nullables : List Bool) (i : Nat)
    (h : i < nullables.length) :
    (write_nullables nullables).length = (nullables.length + 7) / 8 ∧
    read_nullable (write_nullables nullables) i = nullables.getD i false :=
  ⟨length_packLsb0 nullables, getBitLsb0_packLsb0 nullables i h⟩

/-- Witness for the amended C9 at a concrete input. -/
theorem nullable_bits_lsb0_witness :
    2 < ([true, false, true] : List Bool).length ∧
      ((write_nullables [true, false, true]).length = (3 + 7) / 8 ∧
        read_nullable (write_nullables [true, false, true]) 2
          = ([true, false, true] : List Bool).getD 2 false) :=
  ⟨by decide, nullable_bits_lsb0 [true, false, true] 2 (by decide)⟩

end Blaze.Codec

namespace Blaze.FromProto

/-! ## `from_proto.rs`: binding expression trees to a schema

`bind` rewrites a physical-expression tree against an input schema: a
`Column` named `__bound_reference__` is a pre-bound sentinel and passes
through unchanged; any other `Column` is re-resolved with
`Column::new_with_schema`, which looks up the first field with the given
name and returns a `DataFusionError` if the schema lacks it; every other
node recursively rebinds its children (`with_new_children`). The
expression tree is embedded with `Column` leaves explicit and all other
node kinds collapsed into a generic tagged node, since `bind` treats them
uniformly. -/

/-- A physical expression tree: `Column` nodes carry a name and a resolved
index; every non-column node is a tagged node with children. -/
inductive PhysExprM where
  | column (name : String) (index : Nat)
  | node (tag : String) (children : List PhysExprM)

/-- The pre-bound sentinel column name. -/
def boundReference : String := "__bound_reference__"

/-- First-match-by-name field lookup (`Column::new_with_schema`). -/
def index_of_first (schema : List String) (name : String) : Option Nat :=
  schema.findIdx? (fun f => f = name)

mutual

/-- `bind` from `from_proto.rs` over the embedded expression tree. -/
def bind : PhysExprM → List String → Except String PhysExprM
  | .column name idx, s =>
    if name = boundReference then .ok (.column name idx)
    else
      match index_of_first s name with
      | some i => .ok (.column name i)
      | none => .error ("no field named " ++ name)
  | .node tag children, s =>
    match bindList children s with
    | .ok cs => .ok (.node tag cs)
    | .error e => .error e

/-- `bind` mapped over a child list, failing fast on the first error. -/
def bindList : List PhysExprM → List String → Except String (List PhysExprM)
  | [], _ => .ok []
  | e :: es, s =>
    match bind e s with
    | .ok e' =>
      match bindList es s with
      | .ok es' => .ok (e' :: es')
      | .error err => .error err
    | .error err => .error err

end

mutual

/-- All `(name, index)` pairs of `Column` nodes occurring in a tree. -/
def namedCols : PhysExprM → List (String × Nat)
  | .column n i => [(n, i)]
  | .node _ cs => namedColsList cs

/-- All `(name, index)` pairs of `Column` nodes occurring in a forest. -/
def namedColsList : List PhysExprM → List (String × Nat)
  | [] => []
  | e :: es => namedCols e ++ namedColsList es

end

mutual

theorem bind_missing_expr (s : List String) (n : String) (i : Nat)
    (hn : n ≠ boundReference) (hmiss : index_of_first s n = none) :
    ∀ e : PhysExprM, (n, i) ∈ namedCols e → ∃ msg, bind e s = .error msg
  | .column m j, hin => by
    have hm : n = m ∧ i = j := by
      simpa [namedCols] using hin
    obtain ⟨rfl, rfl⟩ := hm
    refine ⟨"no field named " ++ n, ?_⟩
    simp [bind, hn, hmiss]
  | .node tag cs, hin => by
    simp only [namedCols] at hin
    obtain ⟨msg, hmsg⟩ := bind_missing_list s n i hn hmiss cs hin
    exact ⟨msg, by simp [bind, hmsg]⟩

theorem bind_missing_list (s : List String) (n : String) (i : Nat)
    (hn : n ≠ boundReference) (hmiss : index_of_first s n = none) :
    ∀ es : List PhysExprM, (n, i) ∈ namedColsList es →
      ∃ msg, bindList es s = .error msg
  | [], hin => absurd hin (by simp [namedColsList])
  | e :: es, hin => by
    rcases List.mem_append.mp (by simpa [namedColsList] using hin) with hl | hr
    · obtain ⟨msg, hmsg⟩ := bind_missing_expr s n i hn hmiss e hl
      exact ⟨msg, by simp [bindList, hmsg]⟩
    · obtain ⟨msg2, hmsg2⟩ := bind_missing_list s n i hn hmiss es hr
      cases hb : bind e s with
      | ok e' => exact ⟨msg2, by simp [bindList, hb, hmsg2]⟩
      | error err => exact ⟨err, by simp [bindList, hb]⟩

end

/-- C8: binding an expression tree to a schema rewrites `Column` nodes: a
pre-bound `__bound_reference__` sentinel column passes through unchanged, a
named column is re-resolved to the first field of the schema with a
matching name, and if the schema lacks a referenced column name anywhere in
the tree, `bind` returns an error value rather than an unchecked failure. -/
theorem bind_spec (s : List String) (n1 n2 : String) (i1 i2 j : Nat)
    (e : PhysExprM)
    (h1 : n1 ≠ boundReference) (hfound : index_of_first s n1 = some j)
    (h2 : n2 ≠ boundReference) (hmiss : index_of_first s n2 = none)
    (hin : (n2, i2) ∈ namedCols e) :
    bind (.column boundReference i1) s = .ok (.column boundReference i1) ∧
    bind (.column n1 i1) s = .ok (.column n1 j) ∧
    ∃ msg, bind e s = .error msg := by
  refine ⟨?_, ?_, bind_missing_expr s n2 i2 h2 hmiss e hin⟩
  · simp [bind]
  · simp [bind, h1, hfound]

/-- Witness for C8 at a concrete schema and expression. -/
theorem bind_spec_witness :
    ("b" : String) ≠ boundReference ∧
    index_of_first ["a", "b"] "b" = some 1 ∧
    ("z" : String) ≠ boundReference ∧
    index_of_first ["a", "b"] "z" = none ∧
    (("z", 7) ∈ namedCols (.node "and" [.column "z" 7])) ∧
    (bind (.column boundReference 5) ["a", "b"]
        = .ok (.column boundReference 5) ∧
      bind (.column "b" 5) ["a", "b"] = .ok (.column "b" 1) ∧
      ∃ msg, bind (.node "and" [.column "z" 7]) ["a", "b"] = .error msg) :=
  ⟨by decide, by decide, by decide, by decide, by decide,
    bind_spec ["a", "b"] "b" "z" 5 7 1 (.node "and" [.column "z" 7])
      (by decide) (by decide) (by decide) (by decide) (by decide)⟩

end Blaze.FromProto

namespace Blaze.NullIfZero

/-! ## `spark_null_if_zero.rs`

`spark_null_if_zero` turns zero-valued entries into nulls. For a scalar
argument it builds a zero scalar of the same type (`ScalarValue::new_zero`,
which fails for non-numeric types) and compares; equality yields a typed
null scalar (`ScalarValue::try_from(data_type)`). For an array argument of
an integer/unsigned/float type it computes `eq_scalar(array, 0)` and
applies arrow's `nullif`; for decimal types it filters zero values
elementwise keeping precision and scale; any other array type is an error.

Integer values are embedded as `Int`; float values are embedded as their
bit patterns (IEEE-754 `== 0.0` holds exactly for the two signed zero bit
patterns, i.e. when all bits except the sign bit are zero; DataFusion's
`ScalarValue` equality on floats is total-order equality, which at zero is
bit equality). -/

/-- The numeric (non-decimal) element types handled by the `handle!` arm. -/
inductive NumDt where
  | i8 | i16 | i32 | i64 | u8 | u16 | u32 | u64 | f32 | f64
deriving DecidableEq

/-- Argument data types distinguished by `spark_null_if_zero`. -/
inductive DtM where
  | num (d : NumDt)
  | decimal128 (p s : Nat)
  | decimal256 (p s : Nat)
  | unsupported
deriving DecidableEq

/-- Element-level `== 0` test used by `eq_scalar(array, T::default_value())`:
integer types compare the value with zero; float types compare with `+0.0`
under IEEE semantics, which holds exactly when all bits except the sign bit
are zero. -/
def isZeroElem : DtM → Int → Bool
  | .num .f32, v => decide (v % 2147483648 = 0)
  | .num .f64, v => decide (v % 9223372036854775808 = 0)
  | _, v => decide (v = 0)

/-- `eq_scalar(array, zero)`: elementwise comparison, null in gives null out. -/
def eq_scalar (isZ : Int → Bool) (arr : List (Option Int)) : List (Option Bool) :=
  arr.map (fun o => o.map isZ)

/-- Arrow `nullif(array, cond)`: positions where `cond` is exactly `true`
become null, all other positions (false or null condition) are unchanged. -/
def nullif (arr : List (Option Int)) (cond : List (Option Bool)) : List (Option Int) :=
  (arr.zip cond).map (fun p => if p.2 = some true then none else p.1)

/-- The decimal arm: `array.iter().map(|v| v.filter(|v| *v != 0))`, with
precision and scale re-attached unchanged. -/
def decimalFilterZero (arr : List (Option Int)) : List (Option Int) :=
  arr.map (fun o => o.bind (fun v => if v = 0 then none else some v))

/-- A `ColumnarValue` argument to `spark_null_if_zero`: a typed scalar or a
typed array. Decimal types carry precision and scale in the type. -/
inductive ColumnarValueZ where
  | scalar (dt : DtM) (v : Option Int)
  | array (dt : DtM) (vals : List (Option Int))
deriving DecidableEq

/-- `spark_null_if_zero` over the embedded argument. Scalar path:
`ScalarValue::new_zero` fails for unsupported types; otherwise the scalar
is compared with the zero scalar of its own type (equality holds exactly
for the value zero / the `+0.0` bit pattern) and replaced by a typed null
on equality. Array path: `nullif(array, eq_scalar(array, 0))` for numeric
types, elementwise zero filtering for decimals, error otherwise. -/
def spark_null_if_zero : ColumnarValueZ → Except String ColumnarValueZ
  | .scalar dt v =>
    match dt with
    | .unsupported => .error "unsupported scalar data type"
    | _ => if v = some 0 then .ok (.scalar dt none) else .ok (.scalar dt v)
  | .array dt vals =>
    match dt with
    | .num d => .ok (.array dt (nullif vals (eq_scalar (isZeroElem (.num d)) vals)))
    | .decimal128 p s => .ok (.array dt (decimalFilterZero vals))
    | .decimal256 p s => .ok (.array dt (decimalFilterZero vals))
    | .unsupported => .error "unsupported data type"

theorem nullif_eq_scalar_getD (dt : DtM) (vals : List (Option Int)) (i : Nat) :
    (nullif vals (eq_scalar (isZeroElem dt) vals)).getD i none
      = (vals.getD i none).bind
          (fun x => if isZeroElem dt x = true then none else some x) := by
  induction vals generalizing i with
  | nil => cases i <;> rfl
  | cons v vs ih =>
    cases i with
    | zero =>
      cases v with
      | none => rfl
      | some x =>
        simp only [nullif, eq_scalar, List.map_cons, List.zip_cons_cons,
          List.getD_cons_zero, Option.getD_some, Option.some_bind]
        by_cases hz : isZeroElem dt x = true
        · simp [hz]
        · simp [hz]
    | succ i =>
      simpa [nullif, eq_scalar] using ih i

theorem decimalFilterZero_getD (vals : List (Option Int)) (i : Nat) :
    (decimalFilterZero vals).getD i none
      = (vals.getD i none).bind (fun x => if x = 0 then none else some x) := by
  induction vals generalizing i with
  | nil => cases i <;> rfl
  | cons v vs ih =>
    cases i with
    | zero => rfl
    | succ i => simpa [decimalFilterZero] using ih i

/-- Elementwise zero test used by the array paths: for numeric types it is
`isZeroElem`; decimals compare the value with zero. -/
def arrayZeroTest : DtM → Int → Bool
  | .num d, v => isZeroElem (.num d) v
  | _, v => decide (v = 0)

/-- C10: for every supported (numeric, float or decimal) argument type,
`spark_null_if_zero` succeeds and returns a value of the same type (decimal
precision and scale included): an array result has the input's length, and
each position is null when the input value there equals zero (IEEE `±0.0`
for floats), otherwise unchanged, including positions that were already
null; a scalar zero input yields a typed null scalar and a non-zero scalar
is unchanged; arguments of any other type yield an error. -/
theorem null_if_zero_spec (dt : DtM) (vals : List (Option Int)) (i : Nat)
    (sv : Option Int) (hdt : dt ≠ .unsupported) (hsv : sv ≠ some 0) :
    (∃ outv, spark_null_if_zero (.array dt vals) = .ok (.array dt outv) ∧
      outv.length = vals.length ∧
      outv.getD i none
        = (vals.getD i none).bind
            (fun x => if arrayZeroTest dt x = true then none else some x)) ∧
    spark_null_if_zero (.scalar dt (some 0)) = .ok (.scalar dt none) ∧
    spark_null_if_zero (.scalar dt sv) = .ok (.scalar dt sv) ∧
    (∃ msg, spark_null_if_zero (.array .unsupported vals) = .error msg) ∧
    (∃ msg, spark_null_if_zero (.scalar .unsupported sv) = .error msg) := by
  refine ⟨?_, ?_, ?_, ⟨"unsupported data type", rfl⟩,
    ⟨"unsupported scalar data type", rfl⟩⟩
  · cases dt with
    | num d =>
      refine ⟨nullif vals (eq_scalar (isZeroElem (.num d)) vals), rfl, ?_, ?_⟩
      · simp [nullif, eq_scalar]
      · exact nullif_eq_scalar_getD (.num d) vals i
    | decimal128 p s =>
      refine ⟨decimalFilterZero vals, rfl, ?_, ?_⟩
      · simp [decimalFilterZero]
      · simpa [arrayZeroTest] using decimalFilterZero_getD vals i
    | decimal256 p s =>
      refine ⟨decimalFilterZero vals, rfl, ?_, ?_⟩
      · simp [decimalFilterZero]
      · simpa [arrayZeroTest] using decimalFilterZero_getD vals i
    | unsupported => exact absurd rfl hdt
  · cases dt with
    | num d => simp [spark_null_if_zero]
    | decimal128 p s => simp [spark_null_if_zero]
    | decimal256 p s => simp [spark_null_if_zero]
    | unsupported => exact absurd rfl hdt
  · cases dt with
    | num d => simp [spark_null_if_zero, hsv]
    | decimal128 p s => simp [spark_null_if_zero, hsv]
    | decimal256 p s => simp [spark_null_if_zero, hsv]
    | unsupported => exact absurd rfl hdt

/-- Witness for C10 at a concrete decimal array and a float scalar type. -/
theorem null_if_zero_spec_witness :
    (DtM.decimal128 20 2 ≠ DtM.unsupported) ∧
    ((some 5 : Option Int) ≠ some 0) ∧
    ((∃ outv,
        spark_null_if_zero (.array (.decimal128 20 2) [some 1, none, some 0])
          = .ok (.array (.decimal128 20 2) outv) ∧
        outv.length = ([some 1, none, some 0] : List (Option Int)).length ∧
        outv.getD 2 none
          = (([some 1, none, some 0] : List (Option Int)).getD 2 none).bind
              (fun x => if arrayZeroTest (.decimal128 20 2) x = true
                        then none else some x)) ∧
      spark_null_if_zero (.scalar (.decimal128 20 2) (some 0))
        = .ok (.scalar (.decimal128 20 2) none) ∧
      spark_null_if_zero (.scalar (.decimal128 20 2) (some 5))
        = .ok (.scalar (.decimal128 20 2) (some 5)) ∧
      (∃ msg, spark_null_if_zero (.array .unsupported [some 1, none, some 0])
          = .error msg) ∧
      (∃ msg, spark_null_if_zero (.scalar .unsupported (some 5))
          = .error msg)) :=
  ⟨by decide, by decide,
    null_if_zero_spec (.decimal128 20 2) [some 1, none, some 0] 2 (some 5)
      (by decide) (by decide)⟩

end Blaze.NullIfZero

namespace Blaze.CSE

/-! ## `cached_exprs_evaluator.rs`: common-subexpression caching transform

`transform_to_cached_exprs` counts every subexpression occurrence
(structural identity) over the whole forest, collects the expressions whose
count exceeds their parent's count (skipping trivial leaves, and descending
only into the first child of short-circuiting `CaseExpr` / `SCAndExpr` /
`SCOrExpr` nodes), assigns each a cache id, and rewrites the forest
wrapping those nodes in a `CachedExpr` that memoizes its value in a shared
id-indexed cache.

The expression language is embedded with a column reference, a literal, a
representative strict binary operator (`add`), a fallible operator (`divE`,
which errors on a zero divisor, standing for `ExecutionFailure`), and the
three short-circuiting shapes. Evaluation is scalar-valued over a batch
embedded as one value per column: the row dimension is orthogonal to the
caching logic. `PExpr` is the source expression tree; `CExpr` additionally
has the `cached` wrapper that only the transform introduces. -/

/-- Source physical expressions (pre-transform). -/
inductive PExpr where
  | col (i : Nat)
  | lit (v : Int)
  | add (l r : PExpr)
  | divE (l r : PExpr)
  | caseWhen (w t e : PExpr)
  | scAnd (l r : PExpr)
  | scOr (l r : PExpr)
deriving DecidableEq

/-- Transformed expressions: the same shapes plus the `CachedExpr` wrapper. -/
inductive CExpr where
  | col (i : Nat)
  | lit (v : Int)
  | add (l r : CExpr)
  | divE (l r : CExpr)
  | caseWhen (w t e : CExpr)
  | scAnd (l r : CExpr)
  | scOr (l r : CExpr)
  | cached (id : Nat) (inner : CExpr)
deriving DecidableEq

/-- The untransformed embedding of a source expression. -/
def inject : PExpr → CExpr
  | .col i => .col i
  | .lit v => .lit v
  | .add l r => .add (inject l) (inject r)
  | .divE l r => .divE (inject l) (inject r)
  | .caseWhen w t e => .caseWhen (inject w) (inject t) (inject e)
  | .scAnd l r => .scAnd (inject l) (inject r)
  | .scOr l r => .scOr (inject l) (inject r)

/-- Plain (uncached) evaluation of a source expression over a batch,
`Except` standing for a DataFusion evaluation error. The short-circuiting
shapes evaluate their later children only when required. -/
def evalP : PExpr → List Int → Except String Int
  | .col i, b => .ok (b.getD i 0)
  | .lit v, _ => .ok v
  | .add l r, b => do
    let vl ← evalP l b
    let vr ← evalP r b
    .ok (vl + vr)
  | .divE l r, b => do
    let vl ← evalP l b
    let vr ← evalP r b
    if vr = 0 then .error "divide by zero" else .ok (vl / vr)
  | .caseWhen w t e, b => do
    let vw ← evalP w b
    if vw ≠ 0 then evalP t b else evalP e b
  | .scAnd l r, b => do
    let vl ← evalP l b
    if vl = 0 then .ok 0
    else do
      let vr ← evalP r b
      .ok (if vr = 0 then 0 else 1)
  | .scOr l r, b => do
    let vl ← evalP l b
    if vl ≠ 0 then .ok 1
    else do
      let vr ← evalP r b
      .ok (if vr = 0 then 0 else 1)

/-- The shared id-indexed cache (`Cache.values`): one slot per cached
expression, `none` when vacant. -/
abbrev CacheM : Type := List (Option Int)

/-- Evaluation of a transformed expression threading the cache.
`CachedExpr::evaluate` returns the memoized value when the slot is filled
and otherwise evaluates its inner expression once and fills the slot
(errors are propagated and nothing is stored, as in `Cache::get`). -/
def evalC : CExpr → List Int → CacheM → Except String (Int × CacheM)
  | .col i, b, c => .ok (b.getD i 0, c)
  | .lit v, _, c => .ok (v, c)
  | .add l r, b, c => do
    let (vl, c1) ← evalC l b c
    let (vr, c2) ← evalC r b c1
    .ok (vl + vr, c2)
  | .divE l r, b, c => do
    let (vl, c1) ← evalC l b c
    let (vr, c2) ← evalC r b c1
    if vr = 0 then .error "divide by zero" else .ok (vl / vr, c2)
  | .caseWhen w t e, b, c => do
    let (vw, c1) ← evalC w b c
    if vw ≠ 0 then evalC t b c1 else evalC e b c1
  | .scAnd l r, b, c => do
    let (vl, c1) ← evalC l b c
    if vl = 0 then .ok (0, c1)
    else do
      let (vr, c2) ← evalC r b c1
      .ok ((if vr = 0 then 0 else 1), c2)
  | .scOr l r, b, c => do
    let (vl, c1) ← evalC l b c
    if vl ≠ 0 then .ok (1, c1)
    else do
      let (vr, c2) ← evalC r b c1
      .ok ((if vr = 0 then 0 else 1), c2)
  | .cached id e, b, c =>
    match c.getD id none with
    | some v => .ok (v, c)
    | none => do
      let (v, c1) ← evalC e b c
      .ok (v, c1.set id (some v))

/-- Number of occurrences of `x` in the subexpression tree `e`, counting
the node itself and all (transitive) children, duplicates included — the
contents of the `expr_counts` map built by `count`. -/
def countIn (x : PExpr) : PExpr → Nat
  | .col i => if PExpr.col i = x then 1 else 0
  | .lit v => if PExpr.lit v = x then 1 else 0
  | .add l r => (if PExpr.add l r = x then 1 else 0) + countIn x l + countIn x r
  | .divE l r => (if PExpr.divE l r = x then 1 else 0) + countIn x l + countIn x r
  | .caseWhen w t e =>
      (if PExpr.caseWhen w t e = x then 1 else 0)
        + countIn x w + countIn x t + countIn x e
  | .scAnd l r => (if PExpr.scAnd l r = x then 1 else 0) + countIn x l + countIn x r
  | .scOr l r => (if PExpr.scOr l r = x then 1 else 0) + countIn x l + countIn x r

/-- Total occurrence count of `x` over the whole forest. -/
def occ (roots : List PExpr) (x : PExpr) : Nat :=
  (roots.map (countIn x)).sum

/-- Trivial leaves that are never cached (`NoOp` / `Column` / `Literal`). -/
def isLeaf : PExpr → Bool
  | .col _ => true
  | .lit _ => true
  | _ => false

/-- `collect_dups`: walk `e` with its parent's occurrence count, recording
every non-leaf expression whose own count exceeds the parent's (insertion
ordered, deduplicated, standing for the `HashSet`), and descending only
into the first child of short-circuiting expressions. -/
def collectDups (occf : PExpr → Nat) : PExpr → Nat → List PExpr → List PExpr
  | e, parentCount, acc =>
    if isLeaf e then acc
    else
      let c := occf e
      let acc1 := if c > parentCount then (if e ∈ acc then acc else acc ++ [e]) else acc
      match e with
      | .caseWhen w _ _ => collectDups occf w c acc1
      | .scAnd l _ => collectDups occf l c acc1
      | .scOr l _ => collectDups occf l c acc1
      | .add l r => collectDups occf r c (collectDups occf l c acc1)
      | .divE l r => collectDups occf r c (collectDups occf l c acc1)
      | _ => acc1

/-- The duplicate set of the whole forest, every root walked with parent
count 1. -/
def dupsOf (exprs : List PExpr) : List PExpr :=
  exprs.foldl (fun acc e => collectDups (occ exprs) e 1 acc) []

/-- First index of `x` in `l` (the cache id assignment: each duplicate
expression is mapped to a distinct small integer id). -/
def idxOf? : List PExpr → PExpr → Option Nat
  | [], _ => none
  | a :: as, x => if a = x then some 0 else (idxOf? as x).map (· + 1)

/-- Wrap `e'` in a `CachedExpr` when the original expression `e` was
assigned a cache id. -/
def wrapIf (dups : List PExpr) (e : PExpr) (e' : CExpr) : CExpr :=
  match idxOf? dups e with
  | some i => .cached i e'
  | none => e'

/-- The rewriting pass of `transform_to_cached_exprs`: trivial leaves are
returned unchanged; short-circuiting expressions transform only their first
child, keeping later children untransformed; every other node transforms
all children; finally the node is wrapped in a `CachedExpr` when it has a
cache id. -/
def transformE (dups : List PExpr) : PExpr → CExpr
  | .col i => .col i
  | .lit v => .lit v
  | .add l r => wrapIf dups (.add l r) (.add (transformE dups l) (transformE dups r))
  | .divE l r => wrapIf dups (.divE l r) (.divE (transformE dups l) (transformE dups r))
  | .caseWhen w t e =>
      wrapIf dups (.caseWhen w t e)
        (.caseWhen (transformE dups w) (inject t) (inject e))
  | .scAnd l r => wrapIf dups (.scAnd l r) (.scAnd (transformE dups l) (inject r))
  | .scOr l r => wrapIf dups (.scOr l r) (.scOr (transformE dups l) (inject r))

/-- `transform_to_cached_exprs`: the transformed forest together with the
number of cache slots (`Cache::new(cached_expr_ids.len())`). -/
def transform_to_cached_exprs (exprs : List PExpr) : List CExpr × Nat :=
  let dups := dupsOf exprs
  (exprs.map (transformE dups), dups.length)

/-- Evaluate a transformed forest in order, threading the shared cache
(as `CachedExprsEvaluator` does across its filter and projection lists). -/
def evalAllC : List CExpr → List Int → CacheM → Except String (List Int × CacheM)
  | [], _, c => .ok ([], c)
  | e :: es, b, c => do
    let (v, c1) ← evalC e b c
    let (vs, c2) ← evalAllC es b c1
    .ok (v :: vs, c2)

/-- Evaluate an untransformed forest in order. -/
def evalAllP : List PExpr → List Int → Except String (List Int)
  | [], _ => .ok []
  | e :: es, b => do
    let v ← evalP e b
    let vs ← evalAllP es b
    .ok (v :: vs)

theorem idxOf?_getD (l : List PExpr) (x : PExpr) (i : Nat)
    (h : idxOf? l x = some i) : l.getD i (.lit 0) = x := by
  induction l generalizing i with
  | nil => simp [idxOf?] at h
  | cons a as ih =>
    by_cases ha : a = x
    · simp [idxOf?, ha] at h
      subst h
      simpa using ha
    · simp [idxOf?, ha] at h
      obtain ⟨j, hj, rfl⟩ := h
      simpa using ih j hj

/-- Consistency of a cache with the id assignment: every filled slot holds
the plainly-evaluated value of the expression assigned to that id. -/
def Consistent (dups : List PExpr) (b : List Int) (c : CacheM) : Prop :=
  ∀ i v, c.getD i none = some v → evalP (dups.getD i (.lit 0)) b = .ok v

@[simp] theorem ok_bind {a : Type} {b : Type} (x : a) (f : a -> Except String b) :
    (Except.ok x : Except String a) >>= f = f x := rfl

@[simp] theorem error_bind {a : Type} {b : Type} (msg : String)
    (f : a -> Except String b) :
    (Except.error msg : Except String a) >>= f = Except.error msg := rfl

@[simp] theorem emap_ok {a : Type} {b : Type} (f : a -> b) (x : a) :
    Except.map f (Except.ok x : Except String a) = Except.ok (f x) := rfl

@[simp] theorem emap_error {a : Type} {b : Type} (f : a -> b) (msg : String) :
    Except.map f (Except.error msg : Except String a) = Except.error msg := rfl

theorem consistent_nil (dups : List PExpr) (b : List Int) (n : Nat) :
    Consistent dups b (List.replicate n none) := by
  intro i v h
  exfalso
  have hnone : (List.replicate n (none : Option Int)).getD i none = none := by
    rcases lt_or_le i n with hi | hi
    · rw [List.getD, List.get?_eq_getElem?, List.getElem?_replicate, if_pos hi]
      rfl
    · rw [List.getD, List.get?_eq_getElem?, List.getElem?_replicate, if_neg (by omega)]
      rfl
  rw [hnone] at h
  cases h

theorem consistent_set (dups : List PExpr) (b : List Int) (c : CacheM)
    (hc : Consistent dups b c) (i : Nat) (v : Int)
    (hv : evalP (dups.getD i (.lit 0)) b = .ok v) :
    Consistent dups b (c.set i (some v)) := by
  intro j w hj
  by_cases hij : i = j
  · subst hij
    rcases lt_or_le i c.length with hlen | hlen
    · rw [List.getD, List.get?_eq_getElem?, List.getElem?_set_self (by omega)] at hj
      simp at hj
      subst hj
      exact hv
    · rw [List.set_eq_of_length_le hlen] at hj
      exact hc i w hj
  · apply hc j w
    rw [List.getD, List.get?_eq_getElem?, List.getElem?_set_ne hij] at hj
    rw [List.getD, List.get?_eq_getElem?]
    exact hj

/-- The specification of evaluating a (possibly wrapped) transformed
expression from a consistent cache: on success it returns the plain value
and a consistent cache, on failure the same error. -/
def EvalSpec (dups : List PExpr) (e : PExpr) (t : CExpr) (b : List Int) : Prop :=
  forall c : CacheM, Consistent dups b c ->
    match evalP e b with
    | .ok v => Exists fun c' => evalC t b c = .ok (v, c') /\ Consistent dups b c'
    | .error msg => evalC t b c = .error msg

theorem inject_eval (e : PExpr) (b : List Int) :
    forall c : CacheM, evalC (inject e) b c = (evalP e b).map (fun v => (v, c)) := by
  induction e with
  | col i => intro c; rfl
  | lit v => intro c; rfl
  | add l r ihl ihr =>
    intro c
    simp only [inject, evalC, evalP, ihl, ihr]
    cases evalP l b with
    | error msg => rfl
    | ok vl =>
      simp only [emap_ok, ok_bind]
      cases evalP r b with
      | error msg => rfl
      | ok vr => rfl
  | divE l r ihl ihr =>
    intro c
    simp only [inject, evalC, evalP, ihl, ihr]
    cases evalP l b with
    | error msg => rfl
    | ok vl =>
      simp only [emap_ok, ok_bind]
      cases evalP r b with
      | error msg => rfl
      | ok vr =>
        simp only [emap_ok, ok_bind]
        by_cases hz : vr = 0
        · subst hz; rfl
        · simp only [if_neg hz, emap_ok]
  | caseWhen w t e ihw iht ihe =>
    intro c
    simp only [inject, evalC, evalP, ihw]
    cases evalP w b with
    | error msg => rfl
    | ok vw =>
      simp only [emap_ok, ok_bind]
      by_cases hz : vw = 0
      · subst hz
        simp [ihe]
      · simp [hz, iht]
  | scAnd l r ihl ihr =>
    intro c
    simp only [inject, evalC, evalP, ihl]
    cases evalP l b with
    | error msg => rfl
    | ok vl =>
      simp only [emap_ok, ok_bind]
      by_cases hz : vl = 0
      · subst hz; rfl
      · simp only [if_neg hz, ihr]
        cases evalP r b with
        | error msg => rfl
        | ok vr => rfl
  | scOr l r ihl ihr =>
    intro c
    simp only [inject, evalC, evalP, ihl]
    cases evalP l b with
    | error msg => rfl
    | ok vl =>
      simp only [emap_ok, ok_bind]
      by_cases hz : vl = 0
      · subst hz
        simp only [ite_true, ihr]
        simp
        cases evalP r b with
        | error msg => rfl
        | ok vr => rfl
      · simp [hz]

theorem wrapIf_spec (dups : List PExpr) (e : PExpr) (t : CExpr) (b : List Int)
    (hinner : EvalSpec dups e t b) : EvalSpec dups e (wrapIf dups e t) b := by
  intro c hc
  unfold wrapIf
  cases hd : idxOf? dups e with
  | none => exact hinner c hc
  | some i =>
    have hde : dups.getD i (.lit 0) = e := idxOf?_getD dups e i hd
    cases hslot : c.getD i none with
    | some v =>
      have hv : evalP e b = .ok v := by
        have := hc i v hslot
        rwa [hde] at this
      rw [List.getD, List.get?_eq_getElem?] at hslot
      rw [hv]
      exact ⟨c, by simp [evalC, hslot], hc⟩
    | none =>
      have hspec := hinner c hc
      rw [List.getD, List.get?_eq_getElem?] at hslot
      cases he : evalP e b with
      | ok v =>
        rw [he] at hspec
        obtain ⟨c', hc', hcons⟩ := hspec
        refine ⟨c'.set i (some v), ?_, ?_⟩
        · simp [evalC, hslot, hc']
        · exact consistent_set dups b c' hcons i v (by rwa [hde])
      | error msg =>
        rw [he] at hspec
        simp [evalC, hslot, hspec]

theorem transformE_spec (dups : List PExpr) (b : List Int) :
    forall e : PExpr, EvalSpec dups e (transformE dups e) b := by
  intro e
  induction e with
  | col i =>
    intro c hc
    simp only [evalP]
    exact ⟨c, rfl, hc⟩
  | lit v =>
    intro c hc
    simp only [evalP]
    exact ⟨c, rfl, hc⟩
  | add l r ihl ihr =>
    refine wrapIf_spec dups _ _ b ?_
    intro c hc
    have hl := ihl c hc
    cases hel : evalP l b with
    | error msg =>
      rw [hel] at hl
      have hcomb : evalP (.add l r) b = .error msg := by simp [evalP, hel]
      rw [hcomb]
      simp [transformE, evalC, hl]
    | ok vl =>
      rw [hel] at hl
      obtain ⟨c1, hc1, hcons1⟩ := hl
      have hr := ihr c1 hcons1
      cases her : evalP r b with
      | error msg =>
        rw [her] at hr
        have hcomb : evalP (.add l r) b = .error msg := by simp [evalP, hel, her]
        rw [hcomb]
        simp [transformE, evalC, hc1, hr]
      | ok vr =>
        rw [her] at hr
        obtain ⟨c2, hc2, hcons2⟩ := hr
        have hcomb : evalP (.add l r) b = .ok (vl + vr) := by simp [evalP, hel, her]
        rw [hcomb]
        exact ⟨c2, by simp [evalC, hc1, hc2], hcons2⟩
  | divE l r ihl ihr =>
    refine wrapIf_spec dups _ _ b ?_
    intro c hc
    have hl := ihl c hc
    cases hel : evalP l b with
    | error msg =>
      rw [hel] at hl
      have hcomb : evalP (.divE l r) b = .error msg := by simp [evalP, hel]
      rw [hcomb]
      simp [transformE, evalC, hl]
    | ok vl =>
      rw [hel] at hl
      obtain ⟨c1, hc1, hcons1⟩ := hl
      have hr := ihr c1 hcons1
      cases her : evalP r b with
      | error msg =>
        rw [her] at hr
        have hcomb : evalP (.divE l r) b = .error msg := by simp [evalP, hel, her]
        rw [hcomb]
        simp [transformE, evalC, hc1, hr]
      | ok vr =>
        rw [her] at hr
        obtain ⟨c2, hc2, hcons2⟩ := hr
        by_cases hz : vr = 0
        · subst hz
          have hcomb : evalP (.divE l r) b = .error "divide by zero" := by
            simp [evalP, hel, her]
          rw [hcomb]
          simp [evalC, hc1, hc2]
        · have hcomb : evalP (.divE l r) b = .ok (vl / vr) := by
            simp [evalP, hel, her, hz]
          rw [hcomb]
          exact ⟨c2, by simp [evalC, hc1, hc2, hz], hcons2⟩
  | caseWhen w t e ihw iht ihe =>
    refine wrapIf_spec dups _ _ b ?_
    intro c hc
    have hw := ihw c hc
    cases hew : evalP w b with
    | error msg =>
      rw [hew] at hw
      have hcomb : evalP (.caseWhen w t e) b = .error msg := by simp [evalP, hew]
      rw [hcomb]
      simp [transformE, evalC, hw]
    | ok vw =>
      rw [hew] at hw
      obtain ⟨c1, hc1, hcons1⟩ := hw
      by_cases hz : vw = 0
      · subst hz
        have hcomb : evalP (.caseWhen w t e) b = evalP e b := by simp [evalP, hew]
        rw [hcomb]
        have hinj := inject_eval e b c1
        cases hee : evalP e b with
        | error msg =>
          rw [hee] at hinj
          simp [evalC, hc1, hinj]
        | ok ve =>
          rw [hee] at hinj
          exact ⟨c1, by simp [evalC, hc1, hinj], hcons1⟩
      · have hcomb : evalP (.caseWhen w t e) b = evalP t b := by simp [evalP, hew, hz]
        rw [hcomb]
        have hinj := inject_eval t b c1
        cases het : evalP t b with
        | error msg =>
          rw [het] at hinj
          simp [evalC, hc1, hz, hinj]
        | ok vt =>
          rw [het] at hinj
          exact ⟨c1, by simp [evalC, hc1, hz, hinj], hcons1⟩
  | scAnd l r ihl ihr =>
    refine wrapIf_spec dups _ _ b ?_
    intro c hc
    have hl := ihl c hc
    cases hel : evalP l b with
    | error msg =>
      rw [hel] at hl
      have hcomb : evalP (.scAnd l r) b = .error msg := by simp [evalP, hel]
      rw [hcomb]
      simp [transformE, evalC, hl]
    | ok vl =>
      rw [hel] at hl
      obtain ⟨c1, hc1, hcons1⟩ := hl
      by_cases hz : vl = 0
      · subst hz
        have hcomb : evalP (.scAnd l r) b = .ok 0 := by simp [evalP, hel]
        rw [hcomb]
        exact ⟨c1, by simp [evalC, hc1], hcons1⟩
      · have hinj := inject_eval r b c1
        cases her : evalP r b with
        | error msg =>
          rw [her] at hinj
          have hcomb : evalP (.scAnd l r) b = .error msg := by
            simp [evalP, hel, hz, her]
          rw [hcomb]
          simp [evalC, hc1, hz, hinj]
        | ok vr =>
          rw [her] at hinj
          have hcomb : evalP (.scAnd l r) b = .ok (if vr = 0 then 0 else 1) := by
            simp [evalP, hel, hz, her]
          rw [hcomb]
          exact ⟨c1, by simp [evalC, hc1, hz, hinj], hcons1⟩
  | scOr l r ihl ihr =>
    refine wrapIf_spec dups _ _ b ?_
    intro c hc
    have hl := ihl c hc
    cases hel : evalP l b with
    | error msg =>
      rw [hel] at hl
      have hcomb : evalP (.scOr l r) b = .error msg := by simp [evalP, hel]
      rw [hcomb]
      simp [transformE, evalC, hl]
    | ok vl =>
      rw [hel] at hl
      obtain ⟨c1, hc1, hcons1⟩ := hl
      by_cases hz : vl = 0
      · subst hz
        have hinj := inject_eval r b c1
        cases her : evalP r b with
        | error msg =>
          rw [her] at hinj
          have hcomb : evalP (.scOr l r) b = .error msg := by simp [evalP, hel, her]
          rw [hcomb]
          simp [evalC, hc1, hinj]
        | ok vr =>
          rw [her] at hinj
          have hcomb : evalP (.scOr l r) b = .ok (if vr = 0 then 0 else 1) := by
            simp [evalP, hel, her]
          rw [hcomb]
          exact ⟨c1, by simp [evalC, hc1, hinj], hcons1⟩
      · have hcomb : evalP (.scOr l r) b = .ok 1 := by simp [evalP, hel, hz]
        rw [hcomb]
        exact ⟨c1, by simp [evalC, hc1, hz], hcons1⟩

theorem evalAllC_spec (dups : List PExpr) (b : List Int) :
    forall (es : List PExpr) (c : CacheM), Consistent dups b c ->
      match evalAllP es b with
      | .ok vs => Exists fun c' =>
          evalAllC (es.map (transformE dups)) b c = .ok (vs, c') /\
            Consistent dups b c'
      | .error msg => evalAllC (es.map (transformE dups)) b c = .error msg := by
  intro es
  induction es with
  | nil =>
    intro c hc
    exact ⟨c, rfl, hc⟩
  | cons e es ih =>
    intro c hc
    have he := transformE_spec dups b e c hc
    cases hee : evalP e b with
    | error msg =>
      rw [hee] at he
      have hcomb : evalAllP (e :: es) b = .error msg := by simp [evalAllP, hee]
      rw [hcomb]
      simp [evalAllC, he]
    | ok v =>
      rw [hee] at he
      obtain ⟨c1, hc1, hcons1⟩ := he
      have hrest := ih c1 hcons1
      cases hes : evalAllP es b with
      | error msg =>
        rw [hes] at hrest
        have hcomb : evalAllP (e :: es) b = .error msg := by simp [evalAllP, hee, hes]
        rw [hcomb]
        simp [evalAllC, hc1, hrest]
      | ok vs =>
        rw [hes] at hrest
        obtain ⟨c2, hc2, hcons2⟩ := hrest
        have hcomb : evalAllP (e :: es) b = .ok (v :: vs) := by
          simp [evalAllP, hee, hes]
        rw [hcomb]
        exact ⟨c2, by simp [evalAllC, hc1, hc2], hcons2⟩

/-- C3: for every list of (filter and projection) expressions and every
batch, evaluating the forest transformed by `transform_to_cached_exprs`,
starting from the freshly-allocated empty cache and threading it across the
whole forest, produces exactly the results (values or error) of evaluating
the original untransformed forest — for cacheable shapes and for the
short-circuiting shapes (`CaseExpr`, short-circuit AND/OR) alike. -/
theorem cse_transparency (exprs : List PExpr) (batch : List Int) :
    (evalAllC (transform_to_cached_exprs exprs).1 batch
        (List.replicate (transform_to_cached_exprs exprs).2 none)).map Prod.fst
      = evalAllP exprs batch := by
  have h := evalAllC_spec (dupsOf exprs) batch exprs
    (List.replicate (dupsOf exprs).length none)
    (consistent_nil (dupsOf exprs) batch (dupsOf exprs).length)
  simp only [transform_to_cached_exprs]
  cases he : evalAllP exprs batch with
  | ok vs =>
    rw [he] at h
    obtain ⟨c', hc', _⟩ := h
    rw [hc']
    rfl
  | error msg =>
    rw [he] at h
    rw [h]
    rfl

end Blaze.CSE

namespace Blaze.Filt

/-! ## `cached_exprs_evaluator.rs`: filter execution and cache lifecycle

The execution pipeline around `filter_one_pred`, `filter_impl`,
`filter_project_impl` and `Cache::with`. Record batches are embedded with a
schema (column names), integer-valued columns and an explicit row count
(`RecordBatch` keeps a row count even with zero columns). A compiled,
pruned filter predicate is embedded as an opaque pure function of the
pruned batch and the current selection (standing for
`PhysicalExpr::evaluate` / `evaluate_selection`, whose result is
full-batch-aligned); a projection expression is an opaque pure function of
a batch. Cached values are scalars or arrays of nullable values, as in
`ColumnarValue`. -/

/-- An embedded `RecordBatch`: schema (field names), one integer column per
field, and the row count. -/
structure BatchM where
  schema : List String
  cols : List (List Int)
  nrows : Nat
deriving DecidableEq

/-- `RecordBatch::new_empty(schema)`: zero rows, one empty column per field. -/
def newEmpty (s : List String) : BatchM :=
  ⟨s, s.map (fun _ => []), 0⟩

/-- `batch.project(indices)`: select the given columns. -/
def projectB (b : BatchM) (proj : List Nat) : BatchM :=
  ⟨proj.map (fun i => b.schema.getD i ""), proj.map (fun i => b.cols.getD i []),
    b.nrows⟩

/-- The shape of a predicate evaluation result that `filter_one_pred`
distinguishes: the scalar `Boolean(Some(true))`, any other scalar, or a
per-row boolean array (nullable). -/
inductive ColVRes where
  | scalarBool (v : Option Bool)
  | scalarOther
  | arrayBool (bs : List (Option Bool))
deriving DecidableEq

/-- The three-state selection (`FilterStat`). -/
inductive FilterStat where
  | allRetained
  | allFiltered
  | someSel (mask : List Bool)
deriving DecidableEq

/-- An embedded pruned filter predicate: a pure function of the pruned
batch and the optional current selection. -/
abbrev PredM : Type := BatchM → Option (List Bool) → ColVRes

/-- The optional selection carried by a `FilterStat`. -/
def selOf : FilterStat → Option (List Bool)
  | .someSel m => some m
  | _ => none

/-- `prep_null_mask_filter`: null predicate results count as not selected.
(The source applies it only when the array has nulls; on a null-free array
it is the identity, so applying it unconditionally is the same function.) -/
def prepNullMask (bs : List (Option Bool)) : List Bool :=
  bs.map (fun o => o.getD false)

/-- `filter_one_pred`: short-circuit when already `AllFiltered`; otherwise
evaluate the predicate against the batch projected onto its pruned columns
(restricted by the current mask if one exists); scalar true keeps the
current state, any other scalar yields `AllFiltered`, and a boolean array
becomes the new mask with nulls treated as not selected. -/
def filter_one_pred (b : BatchM) (pred : PredM) (proj : List Nat)
    (cur : FilterStat) : FilterStat :=
  match cur with
  | .allFiltered => .allFiltered
  | _ =>
    match pred (projectB b proj) (selOf cur) with
    | .scalarBool (some true) => cur
    | .scalarBool _ => .allFiltered
    | .scalarOther => .allFiltered
    | .arrayBool bs => .someSel (prepNullMask bs)

/-- A cached `ColumnarValue`: a scalar or an array of nullable values. -/
inductive CVal where
  | scalar (v : Option Int)
  | array (vals : List (Option Int))
deriving DecidableEq

/-- The evaluator's cache: one optional `ColumnarValue` per slot. -/
abbrev CacheD : Type := List (Option CVal)

/-- `scatter(mask, values)`: re-expand a filtered array to full alignment,
placing the next value at each true position and null at false positions. -/
def scatterA : List Bool → List (Option Int) → List (Option Int)
  | [], _ => []
  | true :: ps, v :: vs => v :: scatterA ps vs
  | true :: ps, [] => none :: scatterA ps []
  | false :: ps, vs => none :: scatterA ps vs

/-- `filter(values, selection)`: keep the values at selected positions. -/
def filterA (sel : List Bool) (vals : List (Option Int)) : List (Option Int) :=
  (vals.zip sel).filterMap (fun p => if p.2 then some p.1 else none)

/-- `Cache::update_all` as invoked from `filter_impl` after a new array
mask: every cached array is scattered back through the previous mask (when
one existed) and filtered by the new mask; scalars and vacant slots are
unchanged. -/
def updateAll (c : CacheD) (prev : Option (List Bool)) (sel : List Bool) : CacheD :=
  c.map (fun slot =>
    match slot with
    | some (.array a) =>
        some (.array (filterA sel
          (match prev with
           | some p => scatterA p a
           | none => a)))
    | other => other)

/-- An embedded `CachedExprsEvaluator`: pruned filter predicates with their
column projections, projection expressions, and the cache slot count. -/
structure EvModel where
  preds : List (PredM × List Nat)
  projs : List (BatchM → List Int)

/-- One step of the `filter_impl` loop: save the previous selection, run
`filter_one_pred`, and on a new array mask re-align all cached arrays. -/
def stepPred (b : BatchM) (p : PredM × List Nat) (s : FilterStat × CacheD) :
    FilterStat × CacheD :=
  match filter_one_pred b p.1 p.2 s.1 with
  | .someSel sel => (.someSel sel, updateAll s.2 (selOf s.1) sel)
  | st' => (st', s.2)

/-- The selection state and cache after running all predicates in order. -/
def filterState (ev : EvModel) (b : BatchM) (c : CacheD) : FilterStat × CacheD :=
  ev.preds.foldl (fun s p => stepPred b p s) (.allRetained, c)

/-- Apply a boolean mask to one column. -/
def applyMaskCol (m : List Bool) (col : List Int) : List Int :=
  (col.zip m).filterMap (fun p => if p.2 then some p.1 else none)

/-- Number of selected rows of a mask. -/
def countTrue (m : List Bool) : Nat := (m.filter (fun x => x)).length

/-- `filter_record_batch`: apply the mask to every column. -/
def filterBatch (b : BatchM) (m : List Bool) : BatchM :=
  ⟨b.schema, b.cols.map (applyMaskCol m), countTrue m⟩

/-- Materialize the final filtered batch from the composed selection state
(done once, at the end of `filter_impl`). -/
def materialize (st : FilterStat) (b : BatchM) : BatchM :=
  match st with
  | .allFiltered => newEmpty b.schema
  | .allRetained => b
  | .someSel m => filterBatch b m

/-- `filter_impl`: run all predicates and materialize the surviving rows
(an empty batch with the input's schema when everything was filtered). -/
def filter_impl (ev : EvModel) (b : BatchM) (c : CacheD) : BatchM × CacheD :=
  let sc := filterState ev b c
  (materialize sc.1 b, sc.2)

/-- `Cache::reset`: fill every slot with `None` (in place, keeping length). -/
def resetC (c : CacheD) : CacheD := c.map (fun _ => none)

/-- `Cache::with`: reset before using the cache, run the body, reset after
(to release held arrays). -/
def cacheWith (c : CacheD) (f : CacheD → BatchM × CacheD) : BatchM × CacheD :=
  let r := f (resetC c)
  (r.1, resetC r.2)

/-- Top-level `filter`: `self.cache.with(|_| self.filter_impl(batch))`. -/
def filterTop (ev : EvModel) (b : BatchM) (c : CacheD) : BatchM × CacheD :=
  cacheWith c (fun c0 => filter_impl ev b c0)

/-- Evaluate every projection expression against the filtered batch and
assemble the output schema with the filtered row count. -/
def assembleProj (ev : EvModel) (s : List String) (b : BatchM) : BatchM :=
  ⟨s, ev.projs.map (fun f => f b), b.nrows⟩

/-- `filter_project_impl`: run the filters (cache retained for the
projection phase), return an empty batch of the output schema when nothing
survived, otherwise project. -/
def filter_project_impl (ev : EvModel) (b : BatchM) (s : List String)
    (c : CacheD) : BatchM × CacheD :=
  let fc := filter_impl ev b c
  if fc.1.nrows = 0 then (newEmpty s, fc.2) else (assembleProj ev s fc.1, fc.2)

/-- Top-level `filter_project`. -/
def filterProjectTop (ev : EvModel) (b : BatchM) (s : List String)
    (c : CacheD) : BatchM × CacheD :=
  cacheWith c (fun c0 => filter_project_impl ev b s c0)

theorem filterState_fst_cache_free (ev : EvModel) (b : BatchM)
    (c c' : CacheD) : (filterState ev b c).1 = (filterState ev b c').1 := by
  unfold filterState
  suffices h : ∀ (ps : List (PredM × List Nat)) (st : FilterStat) (c c' : CacheD),
      (ps.foldl (fun s p => stepPred b p s) (st, c)).1
        = (ps.foldl (fun s p => stepPred b p s) (st, c')).1 by
    exact h ev.preds .allRetained c c'
  intro ps
  induction ps with
  | nil => intro st c c'; rfl
  | cons p ps ih =>
    intro st c c'
    simp only [List.foldl_cons]
    have hstep : ∀ cc : CacheD, (stepPred b p (st, cc)).1 = filter_one_pred b p.1 p.2 st := by
      intro cc
      unfold stepPred
      cases filter_one_pred b p.1 p.2 st <;> rfl
    have h1 : stepPred b p (st, c) = (filter_one_pred b p.1 p.2 st, (stepPred b p (st, c)).2) := by
      rw [← hstep c]
    have h2 : stepPred b p (st, c') = (filter_one_pred b p.1 p.2 st, (stepPred b p (st, c')).2) := by
      rw [← hstep c']
    rw [h1, h2]
    exact ih _ _ _

/-- C4: for each filter predicate evaluated during `filter` (the selection
state not already `AllFiltered`): a scalar-true predicate result leaves the
selection state unchanged; any other scalar result (boolean false, boolean
null, or a non-boolean scalar) makes the state `AllFiltered`; a per-row
boolean array result becomes the new selection mask with null rows treated
as not selected; and once the state is `AllFiltered`, `filter_impl` returns
a batch with zero rows and the input batch's schema. -/
theorem filter_pred_semantics (b : BatchM) (pred : PredM) (proj : List Nat)
    (cur : FilterStat) (ev : EvModel) (c : CacheD)
    (hcur : cur ≠ .allFiltered) :
    filter_one_pred b pred proj cur
      = (match pred (projectB b proj) (selOf cur) with
         | .scalarBool (some true) => cur
         | .arrayBool bs => .someSel (bs.map (fun o => o.getD false))
         | _ => .allFiltered) ∧
    ((filterState ev b c).1 = .allFiltered →
      (filter_impl ev b c).1 = newEmpty b.schema) ∧
    (newEmpty b.schema).nrows = 0 ∧
    (newEmpty b.schema).schema = b.schema := by
  refine ⟨?_, ?_, rfl, rfl⟩
  · unfold filter_one_pred
    cases cur with
    | allFiltered => exact absurd rfl hcur
    | allRetained =>
      cases pred (projectB b proj) (selOf .allRetained) with
      | scalarBool v =>
        cases v with
        | none => rfl
        | some bv => cases bv <;> rfl
      | scalarOther => rfl
      | arrayBool bs => rfl
    | someSel m =>
      cases pred (projectB b proj) (selOf (.someSel m)) with
      | scalarBool v =>
        cases v with
        | none => rfl
        | some bv => cases bv <;> rfl
      | scalarOther => rfl
      | arrayBool bs => rfl
  · intro hall
    show materialize (filterState ev b c).1 b = newEmpty b.schema
    rw [hall]
    rfl

/-- Witness for C4: a concrete evaluator whose single predicate returns a
nullable boolean array, run on a concrete two-row batch. -/
theorem filter_pred_semantics_witness :
    (FilterStat.allRetained ≠ FilterStat.allFiltered) ∧
    (filter_one_pred ⟨["x"], [[1, 2]], 2⟩
        (fun _ _ => .arrayBool [some true, none]) [0] .allRetained
      = (match (fun (_ : BatchM) (_ : Option (List Bool)) =>
            ColVRes.arrayBool [some true, none]) (projectB ⟨["x"], [[1, 2]], 2⟩ [0])
              (selOf .allRetained) with
         | .scalarBool (some true) => FilterStat.allRetained
         | .arrayBool bs => .someSel (bs.map (fun o => o.getD false))
         | _ => .allFiltered) ∧
      ((filterState ⟨[((fun _ _ => .arrayBool [some true, none] : PredM), [0])],
          []⟩ ⟨["x"], [[1, 2]], 2⟩ []).1 = .allFiltered →
        (filter_impl ⟨[((fun _ _ => .arrayBool [some true, none] : PredM), [0])],
          []⟩ ⟨["x"], [[1, 2]], 2⟩ []).1 = newEmpty ["x"]) ∧
      (newEmpty ["x"]).nrows = 0 ∧ (newEmpty ["x"]).schema = ["x"]) :=
  ⟨by decide,
    filter_pred_semantics ⟨["x"], [[1, 2]], 2⟩
      (fun _ _ => .arrayBool [some true, none]) [0] .allRetained
      ⟨[((fun _ _ => .arrayBool [some true, none] : PredM), [0])], []⟩ []
      (by decide)⟩

theorem filter_project_decomp (ev : EvModel) (b : BatchM) (s : List String)
    (c : CacheD) :
    (filterProjectTop ev b s c).1
      = (if (filterTop ev b c).1.nrows = 0 then newEmpty s
         else assembleProj ev s (filterTop ev b c).1) := by
  unfold filterProjectTop filterTop cacheWith filter_project_impl
  by_cases h : (filter_impl ev b (resetC c)).1.nrows = 0
  · simp [h]
  · simp [h]

/-- C5: `filter_project(b, s)` returns exactly the batch obtained by
evaluating the projection expressions over `filter(b)` and assembling
schema `s`; in particular, when the filter result is empty,
`filter_project` returns an empty batch of `s`. The projection functions
are assumed to produce one value per input row and to be as numerous as the
output schema's fields (both hold for compiled DataFusion projections). -/
theorem filter_project_composition (ev : EvModel) (b : BatchM)
    (s : List String) (c c2 : CacheD)
    (hp : ∀ f ∈ ev.projs, ∀ bb : BatchM, (f bb).length = bb.nrows)
    (hn : ev.projs.length = s.length) :
    (filterProjectTop ev b s c).1 = assembleProj ev s ((filterTop ev b c2).1) ∧
    ((filterTop ev b c2).1.nrows = 0 →
      (filterProjectTop ev b s c).1 = newEmpty s) := by
  have hfb : (filterTop ev b c).1 = (filterTop ev b c2).1 := by
    unfold filterTop cacheWith filter_impl
    simp only
    rw [filterState_fst_cache_free ev b (resetC c) (resetC c2)]
  have hdec := filter_project_decomp ev b s c
  rw [hfb] at hdec
  by_cases h0 : (filterTop ev b c2).1.nrows = 0
  · rw [if_pos h0] at hdec
    refine ⟨?_, fun _ => hdec⟩
    rw [hdec]
    unfold assembleProj newEmpty
    have hcols : ev.projs.map (fun f => f (filterTop ev b c2).1)
        = s.map (fun _ => ([] : List Int)) := by
      have hlen : ∀ f ∈ ev.projs, f (filterTop ev b c2).1 = [] := by
        intro f hf
        have := hp f hf (filterTop ev b c2).1
        rw [h0] at this
        exact List.length_eq_zero.mp this
      have hrep : ∀ (t : Type) (l : List t),
          l.map (fun _ => ([] : List Int)) = List.replicate l.length [] := by
        intro t l
        induction l with
        | nil => rfl
        | cons x xs ih => simp [ih, List.replicate_succ]
      calc ev.projs.map (fun f => f (filterTop ev b c2).1)
          = ev.projs.map (fun _ => ([] : List Int)) := List.map_congr_left hlen
        _ = s.map (fun _ => ([] : List Int)) := by
            rw [hrep _ ev.projs, hrep _ s, hn]
    rw [hcols, h0]
  · rw [if_neg h0] at hdec
    exact ⟨hdec, fun h => absurd h h0⟩

/-- Witness for C5: a concrete evaluator with one row-count-preserving
projection over a concrete batch. -/
theorem filter_project_composition_witness :
    (∀ f ∈ ([fun bb => List.replicate bb.nrows 7] :
        List (BatchM → List Int)), ∀ bb : BatchM, (f bb).length = bb.nrows) ∧
    ([fun bb => List.replicate bb.nrows 7] :
        List (BatchM → List Int)).length = (["y"] : List String).length ∧
    ((filterProjectTop ⟨[], [fun bb => List.replicate bb.nrows 7]⟩
          ⟨["x"], [[1, 2]], 2⟩ ["y"] []).1
        = assembleProj ⟨[], [fun bb => List.replicate bb.nrows 7]⟩ ["y"]
            ((filterTop ⟨[], [fun bb => List.replicate bb.nrows 7]⟩
              ⟨["x"], [[1, 2]], 2⟩ [some (.scalar none)]).1) ∧
      ((filterTop ⟨[], [fun bb => List.replicate bb.nrows 7]⟩
          ⟨["x"], [[1, 2]], 2⟩ [some (.scalar none)]).1.nrows = 0 →
        (filterProjectTop ⟨[], [fun bb => List.replicate bb.nrows 7]⟩
          ⟨["x"], [[1, 2]], 2⟩ ["y"] []).1 = newEmpty ["y"])) := by
  refine ⟨?_, by decide, ?_⟩
  · intro f hf bb
    have hf' : f = fun bb => List.replicate bb.nrows 7 := by
      simpa using hf
    subst hf'
    simp
  · exact filter_project_composition ⟨[], [fun bb => List.replicate bb.nrows 7]⟩
      ⟨["x"], [[1, 2]], 2⟩ ["y"] [] [some (.scalar none)]
      (by
        intro f hf bb
        have hf' : f = fun bb => List.replicate bb.nrows 7 := by
          simpa using hf
        subst hf'
        simp)
      (by decide)

theorem filter_impl_fst_cache_free (ev : EvModel) (b : BatchM)
    (c c' : CacheD) : (filter_impl ev b c).1 = (filter_impl ev b c').1 := by
  unfold filter_impl
  simp only
  rw [filterState_fst_cache_free ev b c c']

/-- C6: every top-level call to `filter` or `filter_project` begins and
ends with every cache slot empty (`None`): the body runs against the reset
(all-`None`) cache, the cache coming out of the call is reset again, so no
cached value survives from one top-level call to the next, and the
returned batch is independent of whatever cache contents preceded the
call. -/
theorem cache_lifecycle (ev : EvModel) (b : BatchM) (s : List String)
    (c c' : CacheD) :
    (∀ slot ∈ resetC c, slot = none) ∧
    filterTop ev b c
      = ((filter_impl ev b (resetC c)).1,
          resetC (filter_impl ev b (resetC c)).2) ∧
    (∀ slot ∈ (filterTop ev b c).2, slot = none) ∧
    (∀ slot ∈ (filterProjectTop ev b s c).2, slot = none) ∧
    (filterTop ev b c).1 = (filterTop ev b c').1 ∧
    (filterProjectTop ev b s c).1 = (filterProjectTop ev b s c').1 := by
  refine ⟨?_, rfl, ?_, ?_, ?_, ?_⟩
  · intro slot hmem
    simp [resetC] at hmem
    exact hmem.2
  · intro slot hmem
    simp only [filterTop, cacheWith, resetC, List.mem_map] at hmem
    obtain ⟨x, _, hx⟩ := hmem
    exact hx.symm
  · intro slot hmem
    simp only [filterProjectTop, cacheWith, resetC, List.mem_map] at hmem
    obtain ⟨x, _, hx⟩ := hmem
    exact hx.symm
  · show (filter_impl ev b (resetC c)).1 = (filter_impl ev b (resetC c')).1
    exact filter_impl_fst_cache_free ev b (resetC c) (resetC c')
  · show (filter_project_impl ev b s (resetC c)).1
      = (filter_project_impl ev b s (resetC c')).1
    unfold filter_project_impl
    simp only
    rw [filter_impl_fst_cache_free ev b (resetC c) (resetC c')]
    by_cases h : (filter_impl ev b (resetC c')).1.nrows = 0
    · simp [h]
    · simp [h]

end Blaze.Filt

namespace Blaze.Codec

/-! ## `batch_serde.rs`: the columnar batch codec

The byte stream is a `List Nat` of bytes. Readers are partial functions
from a stream to a value and the remaining stream. Arrow arrays are
embedded physically: each array carries its `offset` and `len` (so sliced
batches are covered), a raw validity bit sequence, and raw buffers
(value bytes, packed bits, offsets, children), mirroring `ArrayData`. -/

/-- A byte stream. -/
abbrev Bytes : Type := List Nat

/-- Modelled from the spec: `write_len` from the `io` module (not among the
provided sources) — the varint (LEB128) encoding used for counts and
lengths: 7 bits per byte, least significant group first, high bit set on
every byte except the last. Implemented with structural fuel (the first
argument); `n` itself is always sufficient fuel. -/
def write_len_fuel : Nat → Nat → Bytes
  | 0, n => [n % 128]
  | fuel + 1, n => if n < 128 then [n] else (n % 128 + 128) :: write_len_fuel fuel (n / 128)

/-- `write_len n`: the LEB128 bytes of `n`. -/
def write_len (n : Nat) : Bytes := write_len_fuel n n

/-- Modelled from the spec: `read_len` from the `io` module — decodes one
LEB128 varint from the stream. -/
def read_len : Bytes → Option (Nat × Bytes)
  | [] => none
  | b :: rest =>
    if b < 128 then some (b, rest)
    else
      match read_len rest with
      | some (m, r) => some (b - 128 + 128 * m, r)
      | none => none

/-- `read_bytes_slice`: read exactly `k` bytes. -/
def readN (k : Nat) (s : Bytes) : Option (Bytes × Bytes) :=
  if s.length < k then none else some (s.take k, s.drop k)

theorem write_len_fuel_irrel (fuel : Nat) :
    ∀ (fuel' n : Nat), n ≤ fuel → n ≤ fuel' →
      write_len_fuel fuel n = write_len_fuel fuel' n := by
  induction fuel with
  | zero =>
    intro fuel' n h h'
    have hn : n = 0 := by omega
    subst hn
    cases fuel' with
    | zero => rfl
    | succ f => rfl
  | succ fuel ih =>
    intro fuel' n h h'
    cases fuel' with
    | zero =>
      have hn : n = 0 := by omega
      subst hn
      rfl
    | succ f' =>
      by_cases h128 : n < 128
      · simp [write_len_fuel, h128]
      · simp only [write_len_fuel, if_neg h128]
        congr 1
        exact ih f' (n / 128) (by omega) (by omega)

theorem write_len_unfold (n : Nat) :
    write_len n = if n < 128 then [n] else (n % 128 + 128) :: write_len (n / 128) := by
  unfold write_len
  cases n with
  | zero => rfl
  | succ m =>
    show write_len_fuel (m + 1) (m + 1) = _
    by_cases h : m + 1 < 128
    · simp [write_len_fuel, h]
    · simp only [write_len_fuel, if_neg h]
      congr 1
      exact write_len_fuel_irrel m ((m + 1) / 128) ((m + 1) / 128) (by omega) (le_refl _)

theorem read_write_len (n : Nat) (rest : Bytes) :
    read_len (write_len n ++ rest) = some (n, rest) := by
  induction n using Nat.strong_induction_on with
  | _ n ih =>
    rw [write_len_unfold]
    by_cases h128 : n < 128
    · simp [h128, read_len]
    · simp only [if_neg h128, List.cons_append]
      unfold read_len
      rw [if_neg (by omega)]
      rw [ih (n / 128) (Nat.div_lt_self (by omega) (by omega))]
      show some (n % 128 + 128 - 128 + 128 * (n / 128), rest) = some (n, rest)
      have harith : n % 128 + 128 - 128 + 128 * (n / 128) = n := by omega
      rw [harith]

theorem readN_append (xs rest : Bytes) :
    readN xs.length (xs ++ rest) = some (xs, rest) := by
  unfold readN
  rw [if_neg (by simp), List.take_append_of_le_length (le_refl _),
    List.take_length, List.drop_append_of_le_length (le_refl _), List.drop_length,
    List.nil_append]

mutual

/-- Arrow `DataType`, restricted to the types `write_array` supports
(`DataType::Null` excluded: the claim's type list starts at fixed-width
primitives). Strings (nested field names, timezones) are carried as byte
lists. -/
inductive DT where
  | int8
  | int16
  | int32
  | int64
  | uint8
  | uint16
  | uint32
  | uint64
  | float32
  | float64
  | decimal128 (p s : Nat)
  | date32
  | date64
  | tsSec (tz : Option Bytes)
  | tsMs (tz : Option Bytes)
  | tsUs (tz : Option Bytes)
  | tsNs (tz : Option Bytes)
  | boolT
  | utf8
  | binT
  | listT (f : FieldT)
  | mapT (entries : FieldT) (sorted : Bool)
  | structT (fields : FieldList)

/-- Arrow `Field`: name, data type, nullable flag. -/
inductive FieldT where
  | mk (name : Bytes) (dt : DT) (nullable : Bool)

/-- A list of fields (explicitly mutual with `DT` for clean recursion). -/
inductive FieldList where
  | nil
  | cons (f : FieldT) (rest : FieldList)

end

/-- Field name accessor. -/
def fname : FieldT → Bytes
  | .mk n _ _ => n

/-- Field data type accessor. -/
def fdt : FieldT → DT
  | .mk _ d _ => d

/-- Field nullable accessor. -/
def fnull : FieldT → Bool
  | .mk _ _ b => b

mutual

/-- `nameless_data_type`: strip every nested field name. -/
def namelessDT : DT → DT
  | .listT f => .listT (namelessField f)
  | .mapT entries sorted => .mapT (namelessField entries) sorted
  | .structT fields => .structT (namelessFields fields)
  | other => other

/-- `nameless_field`: empty the name, recurse into the type. -/
def namelessField : FieldT → FieldT
  | .mk _ d b => .mk [] (namelessDT d) b

/-- `nameless_field` over a field list. -/
def namelessFields : FieldList → FieldList
  | .nil => .nil
  | .cons f rest => .cons (namelessField f) (namelessFields rest)

end

/-- Number of fields in a field list. -/
def lenFields : FieldList → Nat
  | .nil => 0
  | .cons _ rest => lenFields rest + 1

/-- Encoding of an optional byte string (timezones). -/
def encodeOptBytes : Option Bytes → Bytes
  | none => [0]
  | some b => 1 :: (write_len b.length ++ b)

mutual

/-- Modelled from the spec: the `postcard`-serialized, recursively-encoded,
name-stripped type descriptor written by `write_data_type` (`postcard` is
an external crate; this is a concrete injective stand-in with one tag byte
per node and recursively encoded components). -/
def encodeDT : DT → Bytes
  | .int8 => [0]
  | .int16 => [1]
  | .int32 => [2]
  | .int64 => [3]
  | .uint8 => [4]
  | .uint16 => [5]
  | .uint32 => [6]
  | .uint64 => [7]
  | .float32 => [8]
  | .float64 => [9]
  | .decimal128 p s => 10 :: (write_len p ++ write_len s)
  | .date32 => [11]
  | .date64 => [12]
  | .tsSec tz => 13 :: encodeOptBytes tz
  | .tsMs tz => 14 :: encodeOptBytes tz
  | .tsUs tz => 15 :: encodeOptBytes tz
  | .tsNs tz => 16 :: encodeOptBytes tz
  | .boolT => [17]
  | .utf8 => [18]
  | .binT => [19]
  | .listT f => 20 :: encodeField f
  | .mapT entries sorted => 21 :: (encodeField entries ++ [if sorted then 1 else 0])
  | .structT fields => 22 :: (write_len (lenFields fields) ++ encodeFields fields)

/-- Encoded field: length-prefixed name, type, nullable byte. -/
def encodeField : FieldT → Bytes
  | .mk name d b =>
    write_len name.length ++ name ++ encodeDT d ++ [if b then 1 else 0]

/-- Encoded field list: concatenation (the count is written by the struct
encoder). -/
def encodeFields : FieldList → Bytes
  | .nil => []
  | .cons f rest => encodeField f ++ encodeFields rest

end

/-- Decoder for optional byte strings. -/
def decodeOptBytes : Bytes → Option (Option Bytes × Bytes)
  | [] => none
  | flag :: rest =>
    if flag = 0 then some (none, rest)
    else if flag = 1 then do
      let (n, s1) ← read_len rest
      let (b, s2) ← readN n s1
      some (some b, s2)
    else none

mutual

/-- Decoder for the type descriptor, with structural fuel (any fuel at
least the descriptor's node count suffices). -/
def decodeDT : Nat → Bytes → Option (DT × Bytes)
  | 0, _ => none
  | fuel + 1, b :: rest =>
    match b with
    | 0 => some (.int8, rest)
    | 1 => some (.int16, rest)
    | 2 => some (.int32, rest)
    | 3 => some (.int64, rest)
    | 4 => some (.uint8, rest)
    | 5 => some (.uint16, rest)
    | 6 => some (.uint32, rest)
    | 7 => some (.uint64, rest)
    | 8 => some (.float32, rest)
    | 9 => some (.float64, rest)
    | 10 => do
      let (p, s1) ← read_len rest
      let (sc, s2) ← read_len s1
      some (.decimal128 p sc, s2)
    | 11 => some (.date32, rest)
    | 12 => some (.date64, rest)
    | 13 => do
      let (tz, s1) ← decodeOptBytes rest
      some (.tsSec tz, s1)
    | 14 => do
      let (tz, s1) ← decodeOptBytes rest
      some (.tsMs tz, s1)
    | 15 => do
      let (tz, s1) ← decodeOptBytes rest
      some (.tsUs tz, s1)
    | 16 => do
      let (tz, s1) ← decodeOptBytes rest
      some (.tsNs tz, s1)
    | 17 => some (.boolT, rest)
    | 18 => some (.utf8, rest)
    | 19 => some (.binT, rest)
    | 20 => do
      let (f, s1) ← decodeField fuel rest
      some (.listT f, s1)
    | 21 => do
      let (entries, s1) ← decodeField fuel rest
      match s1 with
      | 0 :: s2 => some (.mapT entries false, s2)
      | 1 :: s2 => some (.mapT entries true, s2)
      | _ => none
    | 22 => do
      let (k, s1) ← read_len rest
      let (fs, s2) ← decodeFields fuel k s1
      some (.structT fs, s2)
    | _ => none
  | _ + 1, [] => none

/-- Decoder for one field. -/
def decodeField : Nat → Bytes → Option (FieldT × Bytes)
  | 0, _ => none
  | fuel + 1, s => do
    let (nl, s1) ← read_len s
    let (name, s2) ← readN nl s1
    let (d, s3) ← decodeDT fuel s2
    match s3 with
    | 0 :: s4 => some (.mk name d false, s4)
    | 1 :: s4 => some (.mk name d true, s4)
    | _ => none

/-- Decoder for `count` fields. -/
def decodeFields : Nat → Nat → Bytes → Option (FieldList × Bytes)
  | _, 0, s => some (.nil, s)
  | 0, _ + 1, _ => none
  | fuel + 1, count + 1, s => do
    let (f, s1) ← decodeField fuel s
    let (fs, s2) ← decodeFields fuel count s1
    some (.cons f fs, s2)

end

mutual

/-- Node-count measure bounding the decode fuel. -/
def sizeDT : DT → Nat
  | .listT f => 1 + sizeField f
  | .mapT entries _ => 1 + sizeField entries
  | .structT fields => 1 + sizeFields fields
  | _ => 1

/-- Measure of a field. -/
def sizeField : FieldT → Nat
  | .mk _ d _ => 1 + sizeDT d

/-- Measure of a field list. -/
def sizeFields : FieldList → Nat
  | .nil => 0
  | .cons f rest => 1 + sizeField f + sizeFields rest

end

@[simp] theorem osome_bind {a : Type} {b : Type} (x : a) (f : a → Option b) :
    (some x >>= f) = f x := rfl

@[simp] theorem onone_bind {a : Type} {b : Type} (f : a → Option b) :
    ((none : Option a) >>= f) = none := rfl

theorem decodeOptBytes_encode (tz : Option Bytes) (rest : Bytes) :
    decodeOptBytes (encodeOptBytes tz ++ rest) = some (tz, rest) := by
  cases tz with
  | none => rfl
  | some b =>
    simp only [encodeOptBytes, List.cons_append, List.append_assoc]
    show decodeOptBytes (1 :: (write_len b.length ++ (b ++ rest))) = some (some b, rest)
    unfold decodeOptBytes
    simp only [if_neg (by omega : ¬(1 : Nat) = 0), if_pos rfl]
    rw [read_write_len]
    simp only [osome_bind]
    rw [readN_append]
    simp

theorem write_len_length_pos (n : Nat) : 1 ≤ (write_len n).length := by
  rw [write_len_unfold]
  by_cases h : n < 128
  · simp [h]
  · simp [h]

mutual

theorem encodeDT_length_ge : (d : DT) → sizeDT d ≤ (encodeDT d).length
  | .int8 => by simp [sizeDT, encodeDT]
  | .int16 => by simp [sizeDT, encodeDT]
  | .int32 => by simp [sizeDT, encodeDT]
  | .int64 => by simp [sizeDT, encodeDT]
  | .uint8 => by simp [sizeDT, encodeDT]
  | .uint16 => by simp [sizeDT, encodeDT]
  | .uint32 => by simp [sizeDT, encodeDT]
  | .uint64 => by simp [sizeDT, encodeDT]
  | .float32 => by simp [sizeDT, encodeDT]
  | .float64 => by simp [sizeDT, encodeDT]
  | .decimal128 p sc => by simp [sizeDT, encodeDT]
  | .date32 => by simp [sizeDT, encodeDT]
  | .date64 => by simp [sizeDT, encodeDT]
  | .tsSec tz => by simp [sizeDT, encodeDT]
  | .tsMs tz => by simp [sizeDT, encodeDT]
  | .tsUs tz => by simp [sizeDT, encodeDT]
  | .tsNs tz => by simp [sizeDT, encodeDT]
  | .boolT => by simp [sizeDT, encodeDT]
  | .utf8 => by simp [sizeDT, encodeDT]
  | .binT => by simp [sizeDT, encodeDT]
  | .listT f => by
    have hf := encodeField_length_ge f
    simp only [sizeDT, encodeDT, List.length_cons]
    omega
  | .mapT entries sorted => by
    have hf := encodeField_length_ge entries
    simp only [sizeDT, encodeDT, List.length_cons, List.length_append]
    omega
  | .structT fields => by
    have hf := encodeFields_length_ge fields
    simp only [sizeDT, encodeDT, List.length_cons, List.length_append]
    omega

theorem encodeField_length_ge : (f : FieldT) → sizeField f + 1 ≤ (encodeField f).length
  | .mk name d b => by
    have hd := encodeDT_length_ge d
    have hw := write_len_length_pos name.length
    simp only [sizeField, encodeField, List.length_append, List.length_cons]
    omega

theorem encodeFields_length_ge : (fs : FieldList) → sizeFields fs ≤ (encodeFields fs).length
  | .nil => by simp [sizeFields, encodeFields]
  | .cons f rest => by
    have hf := encodeField_length_ge f
    have hr := encodeFields_length_ge rest
    simp only [sizeFields, encodeFields, List.length_append]
    omega

end

mutual

theorem decodeDT_encode : (d : DT) → ∀ (fuel : Nat) (rest : Bytes),
    sizeDT d ≤ fuel → decodeDT fuel (encodeDT d ++ rest) = some (d, rest)
  | .int8 => by
    intro fuel rest hfuel
    obtain ⟨fuel', rfl⟩ : ∃ g, fuel = g + 1 := ⟨fuel - 1, by simp [sizeDT] at hfuel; omega⟩
    rfl
  | .int16 => by
    intro fuel rest hfuel
    obtain ⟨fuel', rfl⟩ : ∃ g, fuel = g + 1 := ⟨fuel - 1, by simp [sizeDT] at hfuel; omega⟩
    rfl
  | .int32 => by
    intro fuel rest hfuel
    obtain ⟨fuel', rfl⟩ : ∃ g, fuel = g + 1 := ⟨fuel - 1, by simp [sizeDT] at hfuel; omega⟩
    rfl
  | .int64 => by
    intro fuel rest hfuel
    obtain ⟨fuel', rfl⟩ : ∃ g, fuel = g + 1 := ⟨fuel - 1, by simp [sizeDT] at hfuel; omega⟩
    rfl
  | .uint8 => by
    intro fuel rest hfuel
    obtain ⟨fuel', rfl⟩ : ∃ g, fuel = g + 1 := ⟨fuel - 1, by simp [sizeDT] at hfuel; omega⟩
    rfl
  | .uint16 => by
    intro fuel rest hfuel
    obtain ⟨fuel', rfl⟩ : ∃ g, fuel = g + 1 := ⟨fuel - 1, by simp [sizeDT] at hfuel; omega⟩
    rfl
  | .uint32 => by
    intro fuel rest hfuel
    obtain ⟨fuel', rfl⟩ : ∃ g, fuel = g + 1 := ⟨fuel - 1, by simp [sizeDT] at hfuel; omega⟩
    rfl
  | .uint64 => by
    intro fuel rest hfuel
    obtain ⟨fuel', rfl⟩ : ∃ g, fuel = g + 1 := ⟨fuel - 1, by simp [sizeDT] at hfuel; omega⟩
    rfl
  | .float32 => by
    intro fuel rest hfuel
    obtain ⟨fuel', rfl⟩ : ∃ g, fuel = g + 1 := ⟨fuel - 1, by simp [sizeDT] at hfuel; omega⟩
    rfl
  | .float64 => by
    intro fuel rest hfuel
    obtain ⟨fuel', rfl⟩ : ∃ g, fuel = g + 1 := ⟨fuel - 1, by simp [sizeDT] at hfuel; omega⟩
    rfl
  | .decimal128 p sc => by
    intro fuel rest hfuel
    obtain ⟨fuel', rfl⟩ : ∃ g, fuel = g + 1 := ⟨fuel - 1, by simp [sizeDT] at hfuel; omega⟩
    have hassoc : encodeDT (.decimal128 p sc) ++ rest
        = 10 :: (write_len p ++ (write_len sc ++ rest)) := by
      simp [encodeDT, List.append_assoc]
    rw [hassoc]
    show (do
      let (a, s1) ← read_len (write_len p ++ (write_len sc ++ rest))
      let (b, s2) ← read_len s1
      some (DT.decimal128 a b, s2)) = some (.decimal128 p sc, rest)
    rw [read_write_len]
    simp only [osome_bind]
    rw [read_write_len]
    rfl
  | .date32 => by
    intro fuel rest hfuel
    obtain ⟨fuel', rfl⟩ : ∃ g, fuel = g + 1 := ⟨fuel - 1, by simp [sizeDT] at hfuel; omega⟩
    rfl
  | .date64 => by
    intro fuel rest hfuel
    obtain ⟨fuel', rfl⟩ : ∃ g, fuel = g + 1 := ⟨fuel - 1, by simp [sizeDT] at hfuel; omega⟩
    rfl
  | .tsSec tz => by
    intro fuel rest hfuel
    obtain ⟨fuel', rfl⟩ : ∃ g, fuel = g + 1 := ⟨fuel - 1, by simp [sizeDT] at hfuel; omega⟩
    show (do
      let (tz', s1) ← decodeOptBytes (encodeOptBytes tz ++ rest)
      some (DT.tsSec tz', s1)) = some (.tsSec tz, rest)
    rw [decodeOptBytes_encode]
    rfl
  | .tsMs tz => by
    intro fuel rest hfuel
    obtain ⟨fuel', rfl⟩ : ∃ g, fuel = g + 1 := ⟨fuel - 1, by simp [sizeDT] at hfuel; omega⟩
    show (do
      let (tz', s1) ← decodeOptBytes (encodeOptBytes tz ++ rest)
      some (DT.tsMs tz', s1)) = some (.tsMs tz, rest)
    rw [decodeOptBytes_encode]
    rfl
  | .tsUs tz => by
    intro fuel rest hfuel
    obtain ⟨fuel', rfl⟩ : ∃ g, fuel = g + 1 := ⟨fuel - 1, by simp [sizeDT] at hfuel; omega⟩
    show (do
      let (tz', s1) ← decodeOptBytes (encodeOptBytes tz ++ rest)
      some (DT.tsUs tz', s1)) = some (.tsUs tz, rest)
    rw [decodeOptBytes_encode]
    rfl
  | .tsNs tz => by
    intro fuel rest hfuel
    obtain ⟨fuel', rfl⟩ : ∃ g, fuel = g + 1 := ⟨fuel - 1, by simp [sizeDT] at hfuel; omega⟩
    show (do
      let (tz', s1) ← decodeOptBytes (encodeOptBytes tz ++ rest)
      some (DT.tsNs tz', s1)) = some (.tsNs tz, rest)
    rw [decodeOptBytes_encode]
    rfl
  | .boolT => by
    intro fuel rest hfuel
    obtain ⟨fuel', rfl⟩ : ∃ g, fuel = g + 1 := ⟨fuel - 1, by simp [sizeDT] at hfuel; omega⟩
    rfl
  | .utf8 => by
    intro fuel rest hfuel
    obtain ⟨fuel', rfl⟩ : ∃ g, fuel = g + 1 := ⟨fuel - 1, by simp [sizeDT] at hfuel; omega⟩
    rfl
  | .binT => by
    intro fuel rest hfuel
    obtain ⟨fuel', rfl⟩ : ∃ g, fuel = g + 1 := ⟨fuel - 1, by simp [sizeDT] at hfuel; omega⟩
    rfl
  | .listT f => by
    intro fuel rest hfuel
    obtain ⟨fuel', rfl⟩ : ∃ g, fuel = g + 1 := ⟨fuel - 1, by simp [sizeDT] at hfuel; omega⟩
    show (do
      let (f', s1) ← decodeField fuel' (encodeField f ++ rest)
      some (DT.listT f', s1)) = some (.listT f, rest)
    rw [decodeField_encode f fuel' rest (by simp [sizeDT] at hfuel; omega)]
    rfl
  | .mapT entries sorted => by
    intro fuel rest hfuel
    obtain ⟨fuel', rfl⟩ : ∃ g, fuel = g + 1 := ⟨fuel - 1, by simp [sizeDT] at hfuel; omega⟩
    have hassoc : encodeDT (.mapT entries sorted) ++ rest
        = 21 :: (encodeField entries ++ ((if sorted then 1 else 0) :: rest)) := by
      simp [encodeDT, List.append_assoc]
    rw [hassoc]
    show (do
      let (e', s1) ← decodeField fuel' (encodeField entries ++ ((if sorted then 1 else 0) :: rest))
      match s1 with
      | 0 :: s2 => some (DT.mapT e' false, s2)
      | 1 :: s2 => some (DT.mapT e' true, s2)
      | _ => none) = some (.mapT entries sorted, rest)
    rw [decodeField_encode entries fuel' _ (by simp [sizeDT] at hfuel; omega)]
    cases sorted with
    | false => rfl
    | true => rfl
  | .structT fields => by
    intro fuel rest hfuel
    obtain ⟨fuel', rfl⟩ : ∃ g, fuel = g + 1 := ⟨fuel - 1, by simp [sizeDT] at hfuel; omega⟩
    have hassoc : encodeDT (.structT fields) ++ rest
        = 22 :: (write_len (lenFields fields) ++ (encodeFields fields ++ rest)) := by
      simp [encodeDT, List.append_assoc]
    rw [hassoc]
    show (do
      let (k, s1) ← read_len (write_len (lenFields fields) ++ (encodeFields fields ++ rest))
      let (fs', s2) ← decodeFields fuel' k s1
      some (DT.structT fs', s2)) = some (.structT fields, rest)
    rw [read_write_len]
    simp only [osome_bind]
    rw [decodeFields_encode fields fuel' rest (by simp [sizeDT] at hfuel; omega)]
    rfl

theorem decodeField_encode : (f : FieldT) → ∀ (fuel : Nat) (rest : Bytes),
    sizeField f ≤ fuel → decodeField fuel (encodeField f ++ rest) = some (f, rest)
  | .mk name d b => by
    intro fuel rest hfuel
    obtain ⟨fuel', rfl⟩ : ∃ g, fuel = g + 1 := ⟨fuel - 1, by simp [sizeField] at hfuel; omega⟩
    have hassoc : encodeField (.mk name d b) ++ rest
        = write_len name.length ++ (name ++ (encodeDT d ++ ((if b then 1 else 0) :: rest))) := by
      simp [encodeField, List.append_assoc]
    rw [hassoc]
    show (do
      let (nl, s1) ← read_len (write_len name.length
        ++ (name ++ (encodeDT d ++ ((if b then 1 else 0) :: rest))))
      let (nm, s2) ← readN nl s1
      let (d', s3) ← decodeDT fuel' s2
      match s3 with
      | 0 :: s4 => some (FieldT.mk nm d' false, s4)
      | 1 :: s4 => some (FieldT.mk nm d' true, s4)
      | _ => none) = some (.mk name d b, rest)
    rw [read_write_len]
    simp only [osome_bind]
    rw [readN_append]
    simp only [osome_bind]
    rw [decodeDT_encode d fuel' _ (by simp [sizeField] at hfuel; omega)]
    cases b with
    | false => rfl
    | true => rfl

theorem decodeFields_encode : (fs : FieldList) → ∀ (fuel : Nat) (rest : Bytes),
    sizeFields fs ≤ fuel →
      decodeFields fuel (lenFields fs) (encodeFields fs ++ rest) = some (fs, rest)
  | .nil => by
    intro fuel rest hfuel
    cases fuel with
    | zero => rfl
    | succ g => rfl
  | .cons f fs => by
    intro fuel rest hfuel
    obtain ⟨fuel', rfl⟩ : ∃ g, fuel = g + 1 := ⟨fuel - 1, by simp [sizeFields] at hfuel; omega⟩
    have hassoc : encodeFields (.cons f fs) ++ rest
        = encodeField f ++ (encodeFields fs ++ rest) := by
      simp [encodeFields, List.append_assoc]
    rw [hassoc]
    show (do
      let (f', s1) ← decodeField fuel' (encodeField f ++ (encodeFields fs ++ rest))
      let (fs', s2) ← decodeFields fuel' (lenFields fs) s1
      some (FieldList.cons f' fs', s2)) = some (.cons f fs, rest)
    rw [decodeField_encode f fuel' _ (by simp [sizeFields] at hfuel; omega)]
    simp only [osome_bind]
    rw [decodeFields_encode fs fuel' rest (by simp [sizeFields] at hfuel; omega)]
    rfl

end

/-- `write_data_type`: the length-prefixed, name-stripped descriptor. -/
def write_data_type (d : DT) : Bytes :=
  write_len (encodeDT (namelessDT d)).length ++ encodeDT (namelessDT d)

/-- `read_data_type`: read the length-prefixed descriptor back. -/
def read_data_type (s : Bytes) : Option (DT × Bytes) := do
  let (bl, s1) ← read_len s
  let (buf, s2) ← readN bl s1
  let (d, _) ← decodeDT buf.length buf
  some (d, s2)

theorem read_write_data_type (d : DT) (rest : Bytes) :
    read_data_type (write_data_type d ++ rest) = some (namelessDT d, rest) := by
  unfold write_data_type read_data_type
  rw [List.append_assoc, read_write_len]
  simp only [osome_bind]
  rw [readN_append]
  simp only [osome_bind]
  have hfuel : sizeDT (namelessDT d) ≤ (encodeDT (namelessDT d)).length :=
    encodeDT_length_ge (namelessDT d)
  have hdec := decodeDT_encode (namelessDT d) (encodeDT (namelessDT d)).length [] hfuel
  rw [List.append_nil] at hdec
  rw [hdec]
  rfl

mutual

/-- An arrow array in physical form (`ArrayData`): every array carries its
logical `offset` and `len`; `nulls` is the raw validity bit sequence
(logical validity of row `i` is bit `offset + i`); buffers are raw:
value bytes for fixed-width arrays, a bit sequence for booleans, absolute
offsets plus a data buffer for variable-width arrays, offsets plus child
arrays for lists and maps, full (unsliced) child arrays for structs. -/
inductive PhysArr where
  | prim (itemSize offset len : Nat) (nulls : Option (List Bool)) (data : Bytes)
  | boolA (offset len : Nat) (nulls : Option (List Bool)) (data : List Bool)
  | bytesA (offset len : Nat) (nulls : Option (List Bool)) (offs : List Nat) (data : Bytes)
  | listA (offset len : Nat) (nulls : Option (List Bool)) (offs : List Nat) (child : PhysArr)
  | mapA (offset len : Nat) (nulls : Option (List Bool)) (offs : List Nat)
      (keys : PhysArr) (vals : PhysArr)
  | structA (offset len : Nat) (nulls : Option (List Bool)) (children : ArrList)

/-- A list of child arrays (mutual with `PhysArr`). -/
inductive ArrList where
  | nil
  | cons (a : PhysArr) (rest : ArrList)

end

/-- Logical length (`Array::len`). -/
def lenOf : PhysArr → Nat
  | .prim _ _ l _ _ => l
  | .boolA _ l _ _ => l
  | .bytesA _ l _ _ _ => l
  | .listA _ l _ _ _ => l
  | .mapA _ l _ _ _ _ => l
  | .structA _ l _ _ => l

/-- `Array::slice(o, l)`: advance the logical offset, set the length.
Buffers and children are untouched (arrow composes offsets). -/
def sliceArr : PhysArr → Nat → Nat → PhysArr
  | .prim w o _ nulls data, o', l' => .prim w (o + o') l' nulls data
  | .boolA o _ nulls data, o', l' => .boolA (o + o') l' nulls data
  | .bytesA o _ nulls offs data, o', l' => .bytesA (o + o') l' nulls offs data
  | .listA o _ nulls offs child, o', l' => .listA (o + o') l' nulls offs child
  | .mapA o _ nulls offs k v, o', l' => .mapA (o + o') l' nulls offs k v
  | .structA o _ nulls children, o', l' => .structA (o + o') l' nulls children

/-- Logical validity of row `i` for an array with the given offset. -/
def validAt (nulls : Option (List Bool)) (offset i : Nat) : Bool :=
  match nulls with
  | none => true
  | some bits => bits.getD (offset + i) false

/-- A logical column value: fixed-width values are their raw little-endian
bytes, nested values are row slices of child values. -/
inductive LVal where
  | primV (bs : Bytes)
  | boolV (b : Bool)
  | bytesV (bs : Bytes)
  | listV (elems : List (Option LVal))
  | mapV (keys : List (Option LVal)) (vals : List (Option LVal))
  | structV (fields : List (Option LVal))

mutual

/-- The logical contents of an array: one optional value per logical row. -/
def valuesOf : PhysArr → List (Option LVal)
  | .prim w o l nulls data =>
    (List.range l).map (fun i =>
      if validAt nulls o i then some (.primV ((data.drop (w * (o + i))).take w)) else none)
  | .boolA o l nulls data =>
    (List.range l).map (fun i =>
      if validAt nulls o i then some (.boolV (data.getD (o + i) false)) else none)
  | .bytesA o l nulls offs data =>
    (List.range l).map (fun i =>
      if validAt nulls o i then
        some (.bytesV ((data.drop (offs.getD (o + i) 0)).take
          (offs.getD (o + i + 1) 0 - offs.getD (o + i) 0)))
      else none)
  | .listA o l nulls offs child =>
    (List.range l).map (fun i =>
      if validAt nulls o i then
        some (.listV (((valuesOf child).drop (offs.getD (o + i) 0)).take
          (offs.getD (o + i + 1) 0 - offs.getD (o + i) 0)))
      else none)
  | .mapA o l nulls offs k v =>
    (List.range l).map (fun i =>
      if validAt nulls o i then
        some (.mapV
          (((valuesOf k).drop (offs.getD (o + i) 0)).take
            (offs.getD (o + i + 1) 0 - offs.getD (o + i) 0))
          (((valuesOf v).drop (offs.getD (o + i) 0)).take
            (offs.getD (o + i + 1) 0 - offs.getD (o + i) 0)))
      else none)
  | .structA o l nulls children =>
    (List.range l).map (fun i =>
      if validAt nulls o i then
        some (.structV ((valuesList children).map (fun cv => cv.getD (o + i) none)))
      else none)

/-- The logical contents of each child array. -/
def valuesList : ArrList → List (List (Option LVal))
  | .nil => []
  | .cons a rest => valuesOf a :: valuesList rest

end

/-- The fixed item width of a primitive data type (`get_byte_width`),
`none` for non-primitive types. -/
def primWidth : DT → Option Nat
  | .int8 => some 1
  | .int16 => some 2
  | .int32 => some 4
  | .int64 => some 8
  | .uint8 => some 1
  | .uint16 => some 2
  | .uint32 => some 4
  | .uint64 => some 8
  | .float32 => some 4
  | .float64 => some 8
  | .decimal128 _ _ => some 16
  | .date32 => some 4
  | .date64 => some 8
  | .tsSec _ => some 8
  | .tsMs _ => some 8
  | .tsUs _ => some 8
  | .tsNs _ => some 8
  | _ => none

/-- Validity-bits well-formedness: the raw bit sequence covers the window. -/
def wfNulls (nulls : Option (List Bool)) (bound : Nat) : Bool :=
  match nulls with
  | none => true
  | some bits => decide (bound ≤ bits.length)

/-- Non-decreasing offsets. -/
def chainLe : List Nat → Bool
  | [] => true
  | [_] => true
  | a :: b :: r => decide (a ≤ b) && chainLe (b :: r)

mutual

/-- Shape agreement and buffer bounds between a data type and a physical
array: validity bits cover the window, offsets are monotone with at least
`offset + len + 1` entries bounded by the data (or child) length, children
are well-formed, and struct (and map entry) children are long enough for
the parent's window. -/
def wfArr : DT → PhysArr → Bool
  | dt, .prim w o l nulls data =>
    match primWidth dt with
    | some w' => w == w' && wfNulls nulls (o + l) && decide (w * (o + l) ≤ data.length)
    | none => false
  | .boolT, .boolA o l nulls data =>
    wfNulls nulls (o + l) && decide (o + l ≤ data.length)
  | .utf8, .bytesA o l nulls offs data =>
    wfNulls nulls (o + l) && decide (o + l + 1 ≤ offs.length) && chainLe offs
      && decide (offs.getD (o + l) 0 ≤ data.length)
  | .binT, .bytesA o l nulls offs data =>
    wfNulls nulls (o + l) && decide (o + l + 1 ≤ offs.length) && chainLe offs
      && decide (offs.getD (o + l) 0 ≤ data.length)
  | .listT f, .listA o l nulls offs child =>
    wfNulls nulls (o + l) && decide (o + l + 1 ≤ offs.length) && chainLe offs
      && decide (offs.getD (o + l) 0 ≤ lenOf child) && wfArr (fdt f) child
  | .mapT entries _, .mapA o l nulls offs k v =>
    match entries with
    | .mk _ (.structT (.cons kf (.cons vf .nil))) _ =>
      wfNulls nulls (o + l) && decide (o + l + 1 ≤ offs.length) && chainLe offs
        && decide (offs.getD (o + l) 0 ≤ lenOf k)
        && decide (offs.getD (o + l) 0 ≤ lenOf v)
        && wfArr (fdt kf) k && wfArr (fdt vf) v
    | _ => false
  | .structT fields, .structA o l nulls children =>
    wfNulls nulls (o + l) && wfFields fields children (o + l)
  | _, _ => false

/-- Children well-formedness for a struct: counts agree, each child is
well-formed and long enough for the parent window. -/
def wfFields : FieldList → ArrList → Nat → Bool
  | .nil, .nil, _ => true
  | .cons f fs, .cons c cs, bound =>
    wfArr (fdt f) c && decide (bound ≤ lenOf c) && wfFields fs cs bound
  | _, _, _ => false

end

/-- The null-buffer section written for one array: `write_len(1)` plus the
repacked window of validity bits when a null buffer exists, else
`write_len(0)` (`write_bits_buffer(null_buffer, offset, len)`). -/
def writeNullsB (nulls : Option (List Bool)) (o l : Nat) : Bytes :=
  match nulls with
  | some bits => write_len 1 ++ packLsb0 ((bits.drop o).take l)
  | none => write_len 0

/-- Per-row lengths written for variable-width shapes: consecutive
differences of the offsets window (`len = offset - cur_offset`). -/
def lensOf (offs : List Nat) (o l : Nat) : List Nat :=
  (List.range l).map (fun i => offs.getD (o + i + 1) 0 - offs.getD (o + i) 0)

/-- The bit sequence reconstructed from a packed byte buffer
(`bit_util::get_bit` on the read side, offset 0). -/
def unpackBits (bytes : Bytes) (len : Nat) : List Bool :=
  (List.range len).map (fun i => getBitLsb0 bytes i)

/-- Read the null-buffer section back (`has_null` flag, then
`ceil (rows / 8)` bitmap bytes when set). -/
def readNullsB (len : Nat) (s : Bytes) : Option (Option (List Bool) × Bytes) := do
  let (flag, s1) ← read_len s
  if flag = 1 then do
    let (bts, s2) ← readN ((len + 7) / 8) s1
    some (some (unpackBits bts len), s2)
  else some (none, s1)

/-- Read `rows` varint lengths. -/
def readLens : Nat → Bytes → Option (List Nat × Bytes)
  | 0, s => some ([], s)
  | r + 1, s => do
    let (x, s1) ← read_len s
    let (xs, s2) ← readLens r s1
    some (x :: xs, s2)

/-- Offsets rebuilt from lengths, starting at zero (`offsets_buffer`). -/
def cumsum (acc : Nat) : List Nat → List Nat
  | [] => [acc]
  | x :: xs => acc :: cumsum (acc + x) xs

/-- Sum of a length list (the rebuilt data/child length). -/
def sumL (l : List Nat) : Nat := l.foldl (fun a x => a + x) 0

mutual

/-- `write_array`: dispatch on the data type, failing on a type/array shape
mismatch (the source's downcasts). Fixed-width primitives write the null
section and the raw value-byte window; booleans pack the bit window;
variable-width arrays write per-row lengths and the data window; lists and
maps write lengths and the sliced child(ren); structs write each child
sliced to the parent's window (`StructArray::columns()`). -/
def write_array : DT → PhysArr → Option Bytes
  | dt, .prim w o l nulls data =>
    match primWidth dt with
    | some w' =>
      if w = w' then
        some (writeNullsB nulls o l ++ (data.drop (w' * o)).take (w' * l))
      else none
    | none => none
  | .boolT, .boolA o l nulls data =>
    some (writeNullsB nulls o l ++ packLsb0 ((data.drop o).take l))
  | .utf8, .bytesA o l nulls offs data =>
    some (writeNullsB nulls o l ++ ((lensOf offs o l).map write_len).flatten
      ++ (data.drop (offs.getD o 0)).take (offs.getD (o + l) 0 - offs.getD o 0))
  | .binT, .bytesA o l nulls offs data =>
    some (writeNullsB nulls o l ++ ((lensOf offs o l).map write_len).flatten
      ++ (data.drop (offs.getD o 0)).take (offs.getD (o + l) 0 - offs.getD o 0))
  | .listT (.mk _ d _), .listA o l nulls offs child => do
    let body ← write_array d
      (sliceArr child (offs.getD o 0) (offs.getD (o + l) 0 - offs.getD o 0))
    some (writeNullsB nulls o l ++ ((lensOf offs o l).map write_len).flatten ++ body)
  | .mapT (.mk _ (.structT (.cons (.mk _ kd _) (.cons (.mk _ vd _) .nil))) _) _,
      .mapA o l nulls offs k v => do
    let kb ← write_array kd
      (sliceArr k (offs.getD o 0) (offs.getD (o + l) 0 - offs.getD o 0))
    let vb ← write_array vd
      (sliceArr v (offs.getD o 0) (offs.getD (o + l) 0 - offs.getD o 0))
    some (writeNullsB nulls o l ++ ((lensOf offs o l).map write_len).flatten ++ kb ++ vb)
  | .structT fields, .structA o l nulls children => do
    let body ← write_fields fields children o l
    some (writeNullsB nulls o l ++ body)
  | _, _ => none

/-- Struct children, each written as its `(offset, len)` slice. -/
def write_fields : FieldList → ArrList → Nat → Nat → Option Bytes
  | .nil, .nil, _, _ => some []
  | .cons (.mk _ d _) fs, .cons c cs, o, l => do
    let x ← write_array d (sliceArr c o l)
    let y ← write_fields fs cs o l
    some (x ++ y)
  | _, _, _, _ => none

end

/-- `read_primitive_array`: null section, then `rows * width` raw bytes. -/
def readPrim (w rows : Nat) (s : Bytes) : Option (PhysArr × Bytes) := do
  let (nulls, s1) ← readNullsB rows s
  let (data, s2) ← readN (w * rows) s1
  some (.prim w 0 rows nulls data, s2)

/-- `read_bytes_array`: null section, `rows` lengths, then the data bytes;
offsets are rebuilt by accumulation from zero. -/
def readBytesL (rows : Nat) (s : Bytes) : Option (PhysArr × Bytes) := do
  let (nulls, s1) ← readNullsB rows s
  let (lens, s2) ← readLens rows s1
  let (data, s3) ← readN (sumL lens) s2
  some (.bytesA 0 rows nulls (cumsum 0 lens) data, s3)

mutual

/-- `read_array`: dispatch on the decoded data type, reconstructing each
array at offset 0 with `rows` rows. -/
def read_array : DT → Nat → Bytes → Option (PhysArr × Bytes)
  | .int8, rows, s => readPrim 1 rows s
  | .int16, rows, s => readPrim 2 rows s
  | .int32, rows, s => readPrim 4 rows s
  | .int64, rows, s => readPrim 8 rows s
  | .uint8, rows, s => readPrim 1 rows s
  | .uint16, rows, s => readPrim 2 rows s
  | .uint32, rows, s => readPrim 4 rows s
  | .uint64, rows, s => readPrim 8 rows s
  | .float32, rows, s => readPrim 4 rows s
  | .float64, rows, s => readPrim 8 rows s
  | .decimal128 _ _, rows, s => readPrim 16 rows s
  | .date32, rows, s => readPrim 4 rows s
  | .date64, rows, s => readPrim 8 rows s
  | .tsSec _, rows, s => readPrim 8 rows s
  | .tsMs _, rows, s => readPrim 8 rows s
  | .tsUs _, rows, s => readPrim 8 rows s
  | .tsNs _, rows, s => readPrim 8 rows s
  | .boolT, rows, s => do
    let (nulls, s1) ← readNullsB rows s
    let (bts, s2) ← readN ((rows + 7) / 8) s1
    some (.boolA 0 rows nulls (unpackBits bts rows), s2)
  | .utf8, rows, s => readBytesL rows s
  | .binT, rows, s => readBytesL rows s
  | .listT (.mk _ d _), rows, s => do
    let (nulls, s1) ← readNullsB rows s
    let (lens, s2) ← readLens rows s1
    let (child, s3) ← read_array d (sumL lens) s2
    some (.listA 0 rows nulls (cumsum 0 lens) child, s3)
  | .mapT (.mk _ (.structT (.cons (.mk _ kd _) (.cons (.mk _ vd _) .nil))) _) _,
      rows, s => do
    let (nulls, s1) ← readNullsB rows s
    let (lens, s2) ← readLens rows s1
    let (k, s3) ← read_array kd (sumL lens) s2
    let (v, s4) ← read_array vd (sumL lens) s3
    some (.mapA 0 rows nulls (cumsum 0 lens) k v, s4)
  | .mapT _ _, _, _ => none
  | .structT fields, rows, s => do
    let (nulls, s1) ← readNullsB rows s
    let (children, s2) ← read_fields fields rows s1
    some (.structA 0 rows nulls children, s2)

/-- `read_struct_array` children: one array per field, each at `rows`. -/
def read_fields : FieldList → Nat → Bytes → Option (ArrList × Bytes)
  | .nil, _, s => some (.nil, s)
  | .cons (.mk _ d _) fs, rows, s => do
    let (c, s1) ← read_array d rows s
    let (cs, s2) ← read_fields fs rows s1
    some (.cons c cs, s2)

end

theorem range_map_getD {a : Type} (n i : Nat) (f : Nat → a) (d : a) (h : i < n) :
    ((List.range n).map f).getD i d = f i := by
  simp [List.getD, List.get?_eq_getElem?, List.getElem?_map, List.getElem?_range h]

theorem length_valuesOf (a : PhysArr) : (valuesOf a).length = lenOf a := by
  cases a <;> simp [valuesOf, lenOf]

theorem valuesList_length_eq (cs : ArrList) :
    ∀ x ∈ valuesList cs, True := by
  intro x hx
  trivial

theorem window_window {a : Type} (data : List a) (first lo hi last : Nat)
    (h1 : first ≤ lo) (h3 : hi ≤ last) (h4 : last ≤ data.length) :
    (((data.drop first).take (last - first)).drop (lo - first)).take (hi - lo)
      = (data.drop lo).take (hi - lo) := by
  apply List.ext_getElem?
  intro i
  simp only [List.getElem?_take, List.getElem?_drop]
  by_cases hi2 : i < hi - lo
  · rw [if_pos hi2, if_pos hi2]
    rw [if_pos (by omega)]
    congr 1
    omega
  · rw [if_neg hi2, if_neg hi2]

theorem window_length {a : Type} (data : List a) (first last : Nat)
    (h1 : first ≤ last) (h2 : last ≤ data.length) :
    ((data.drop first).take (last - first)).length = last - first := by
  simp only [List.length_take, List.length_drop]
  omega

theorem range_map_window {a : Type} (n o l : Nat) (f : Nat → a) (h : o + l ≤ n) :
    (((List.range n).map f).drop o).take l = (List.range l).map (fun i => f (o + i)) := by
  apply List.ext_getElem?
  intro i
  simp only [List.getElem?_take, List.getElem?_drop, List.getElem?_map]
  by_cases hil : i < l
  · rw [if_pos hil, List.getElem?_range (by omega : o + i < n),
      List.getElem?_range hil]
    rfl
  · rw [if_neg hil]
    rw [List.getElem?_eq_none (by simpa using hil)]
    rfl

theorem window_getD {a : Type} (l : List a) (o len i : Nat) (d : a)
    (hi : i < len) (hlen : o + len ≤ l.length) :
    ((l.drop o).take len).getD i d = l.getD (o + i) d := by
  simp only [List.getD, List.get?_eq_getElem?, List.getElem?_take, List.getElem?_drop,
    if_pos hi]

theorem chainLe_adj (l : List Nat) (hc : chainLe l = true) :
    ∀ i, i + 1 < l.length → l.getD i 0 ≤ l.getD (i + 1) 0 := by
  induction l with
  | nil => intro i h; simp at h
  | cons x xs ih =>
    intro i h
    cases xs with
    | nil => simp at h
    | cons y ys =>
      have hc' : x ≤ y ∧ chainLe (y :: ys) = true := by
        simpa [chainLe] using hc
      cases i with
      | zero =>
        simpa [List.getD] using hc'.1
      | succ j =>
        have := ih hc'.2 j (by simpa using h)
        simpa [List.getD] using this

theorem chainLe_mono (l : List Nat) (hc : chainLe l = true) :
    ∀ i j, i ≤ j → j < l.length → l.getD i 0 ≤ l.getD j 0 := by
  intro i j hij hj
  induction j with
  | zero =>
    have : i = 0 := by omega
    subst this
    exact le_refl _
  | succ k ih =>
    rcases Nat.lt_or_ge i (k + 1) with hik | hik
    · have h1 := ih (by omega) (by omega)
      have h2 := chainLe_adj l hc k hj
      omega
    · have : i = k + 1 := by omega
      subst this
      exact le_refl _

theorem cumsum_getD (lens : List Nat) :
    ∀ (acc i : Nat), i ≤ lens.length →
      (cumsum acc lens).getD i 0 = acc + ((lens.take i).foldl (fun a x => a + x) 0) := by
  induction lens with
  | nil =>
    intro acc i h
    have h0 : i = 0 := by simpa using h
    subst h0
    simp [cumsum, List.getD]
  | cons x xs ih =>
    intro acc i h
    cases i with
    | zero => simp [cumsum, List.getD]
    | succ j =>
      have hj : j ≤ xs.length := by simpa using h
      have hrec := ih (acc + x) j hj
      simp only [cumsum, List.getD_cons_succ, hrec, List.take_succ_cons]
      have hshift : ∀ (l : List Nat) (a : Nat),
          l.foldl (fun acc2 y => acc2 + y) a = a + l.foldl (fun acc2 y => acc2 + y) 0 := by
        intro l
        induction l with
        | nil => intro a; simp
        | cons z zs ihz =>
          intro a
          simp only [List.foldl_cons]
          rw [ihz (a + z), ihz (0 + z)]
          omega
      simp only [List.foldl_cons]
      rw [hshift (xs.take j) (0 + x)]
      omega

theorem sumTake_lensOf (offs : List Nat) (o l : Nat) (hc : chainLe offs = true)
    (hlen : o + l + 1 ≤ offs.length) :
    ∀ i, i ≤ l →
      ((lensOf offs o l).take i).foldl (fun a x => a + x) 0
        = offs.getD (o + i) 0 - offs.getD o 0 := by
  intro i
  induction i with
  | zero =>
    intro _
    simp
  | succ j ih =>
    intro hjl
    have hj := ih (by omega)
    have htake : (lensOf offs o l).take (j + 1)
        = (lensOf offs o l).take j ++ [offs.getD (o + j + 1) 0 - offs.getD (o + j) 0] := by
      unfold lensOf
      rw [← List.map_take, ← List.map_take]
      rw [List.take_range, List.take_range]
      have hm1 : (j + 1) ⊓ l = j + 1 := by omega
      have hm2 : j ⊓ l = j := by omega
      rw [hm1, hm2, List.range_succ]
      simp
    rw [htake, List.foldl_append, hj]
    simp only [List.foldl_cons, List.foldl_nil]
    have h1 : offs.getD o 0 ≤ offs.getD (o + j) 0 :=
      chainLe_mono offs hc o (o + j) (by omega) (by omega)
    have h2 : offs.getD (o + j) 0 ≤ offs.getD (o + j + 1) 0 :=
      chainLe_adj offs hc (o + j) (by omega)
    have harr : o + (j + 1) = o + j + 1 := by omega
    rw [harr]
    omega

theorem sumL_lensOf (offs : List Nat) (o l : Nat) (hc : chainLe offs = true)
    (hlen : o + l + 1 ≤ offs.length) :
    sumL (lensOf offs o l) = offs.getD (o + l) 0 - offs.getD o 0 := by
  have h := sumTake_lensOf offs o l hc hlen l (le_refl l)
  rw [List.take_of_length_le (by simp [lensOf])] at h
  exact h

theorem lensOf_length (offs : List Nat) (o l : Nat) : (lensOf offs o l).length = l := by
  simp [lensOf]

theorem cumsum_lensOf_getD (offs : List Nat) (o l : Nat) (hc : chainLe offs = true)
    (hlen : o + l + 1 ≤ offs.length) (i : Nat) (hi : i ≤ l) :
    (cumsum 0 (lensOf offs o l)).getD i 0 = offs.getD (o + i) 0 - offs.getD o 0 := by
  rw [cumsum_getD (lensOf offs o l) 0 i (by simp [lensOf]; omega)]
  rw [sumTake_lensOf offs o l hc hlen i hi]
  omega

theorem readLens_write (lens : List Nat) (rest : Bytes) :
    readLens lens.length ((lens.map write_len).flatten ++ rest) = some (lens, rest) := by
  induction lens with
  | nil => rfl
  | cons x xs ih =>
    show readLens (xs.length + 1)
      ((write_len x ++ (xs.map write_len).flatten) ++ rest) = some (x :: xs, rest)
    unfold readLens
    rw [List.append_assoc, read_write_len]
    simp only [osome_bind]
    rw [ih]
    rfl

theorem readNullsB_write (nulls : Option (List Bool)) (o l : Nat) (rest : Bytes)
    (hwf : wfNulls nulls (o + l) = true) :
    ∃ nulls', readNullsB l (writeNullsB nulls o l ++ rest) = some (nulls', rest)
      ∧ ∀ i, i < l → validAt nulls' 0 i = validAt nulls o i := by
  cases nulls with
  | none =>
    refine ⟨none, ?_, ?_⟩
    · show readNullsB l (write_len 0 ++ rest) = some (none, rest)
      unfold readNullsB
      rw [read_write_len]
      rfl
    · intro i hi
      rfl
  | some bits =>
    have hblen : o + l ≤ bits.length := by simpa [wfNulls] using hwf
    have hwin : ((bits.drop o).take l).length = l := by
      simp only [List.length_take, List.length_drop]
      omega
    refine ⟨some (unpackBits (packLsb0 ((bits.drop o).take l)) l), ?_, ?_⟩
    · show readNullsB l ((write_len 1 ++ packLsb0 ((bits.drop o).take l)) ++ rest)
        = some (some (unpackBits (packLsb0 ((bits.drop o).take l)) l), rest)
      unfold readNullsB
      rw [List.append_assoc, read_write_len]
      simp only [osome_bind, if_pos rfl]
      have hplen : (packLsb0 ((bits.drop o).take l)).length = (l + 7) / 8 := by
        rw [Blaze.length_packLsb0, hwin]
      rw [← hplen, readN_append]
      rfl
    · intro i hi
      show (unpackBits (packLsb0 ((bits.drop o).take l)) l).getD (0 + i) false
        = bits.getD (o + i) false
      unfold unpackBits
      rw [Nat.zero_add, range_map_getD l i _ false hi]
      rw [Blaze.getBitLsb0_packLsb0 _ i (by omega)]
      rw [window_getD bits o l i false hi hblen]

theorem lenOf_slice (a : PhysArr) (o' l' : Nat) : lenOf (sliceArr a o' l') = l' := by
  cases a <;> rfl

theorem valuesOf_slice (a : PhysArr) (o' l' : Nat) (h : o' + l' ≤ lenOf a) :
    valuesOf (sliceArr a o' l') = ((valuesOf a).drop o').take l' := by
  cases a with
  | prim w o l nulls data =>
    simp only [lenOf] at h
    show valuesOf (.prim w (o + o') l' nulls data) = _
    simp only [valuesOf]
    rw [range_map_window l o' l' _ h]
    apply List.map_congr_left
    intro i hi
    simp [validAt, Nat.add_assoc]
  | boolA o l nulls data =>
    simp only [lenOf] at h
    show valuesOf (.boolA (o + o') l' nulls data) = _
    simp only [valuesOf]
    rw [range_map_window l o' l' _ h]
    apply List.map_congr_left
    intro i hi
    simp [validAt, Nat.add_assoc]
  | bytesA o l nulls offs data =>
    simp only [lenOf] at h
    show valuesOf (.bytesA (o + o') l' nulls offs data) = _
    simp only [valuesOf]
    rw [range_map_window l o' l' _ h]
    apply List.map_congr_left
    intro i hi
    simp [validAt, Nat.add_assoc]
  | listA o l nulls offs child =>
    simp only [lenOf] at h
    show valuesOf (.listA (o + o') l' nulls offs child) = _
    simp only [valuesOf]
    rw [range_map_window l o' l' _ h]
    apply List.map_congr_left
    intro i hi
    simp [validAt, Nat.add_assoc]
  | mapA o l nulls offs k v =>
    simp only [lenOf] at h
    show valuesOf (.mapA (o + o') l' nulls offs k v) = _
    simp only [valuesOf]
    rw [range_map_window l o' l' _ h]
    apply List.map_congr_left
    intro i hi
    simp [validAt, Nat.add_assoc]
  | structA o l nulls children =>
    simp only [lenOf] at h
    show valuesOf (.structA (o + o') l' nulls children) = _
    simp only [valuesOf]
    rw [range_map_window l o' l' _ h]
    apply List.map_congr_left
    intro i hi
    simp [validAt, Nat.add_assoc]

theorem wfNulls_mono (nulls : Option (List Bool)) (b b' : Nat) (h : b' ≤ b)
    (hwf : wfNulls nulls b = true) : wfNulls nulls b' = true := by
  cases nulls with
  | none => rfl
  | some bits =>
    simp only [wfNulls, decide_eq_true_eq] at hwf ⊢
    omega

theorem wfFields_mono : (fs : FieldList) →
    ∀ (cs : ArrList) (b b' : Nat), b' ≤ b → wfFields fs cs b = true →
      wfFields fs cs b' = true
  | .nil => by
    intro cs b b' h hwf
    cases cs with
    | nil => rfl
    | cons c cs => simp [wfFields] at hwf
  | .cons f fs => by
    intro cs b b' h hwf
    cases cs with
    | nil => simp [wfFields] at hwf
    | cons c cs =>
      simp only [wfFields, Bool.and_eq_true, decide_eq_true_eq] at hwf ⊢
      exact ⟨⟨hwf.1.1, by omega⟩, wfFields_mono fs cs b b' h hwf.2⟩

theorem wfFields_values_length : (fs : FieldList) →
    ∀ (cs : ArrList) (b : Nat), wfFields fs cs b = true →
      ∀ cv ∈ valuesList cs, b ≤ cv.length
  | .nil => by
    intro cs b hwf cv hcv
    cases cs with
    | nil => simp [valuesList] at hcv
    | cons c cs => simp [wfFields] at hwf
  | .cons f fs => by
    intro cs b hwf cv hcv
    cases cs with
    | nil => simp [wfFields] at hwf
    | cons c cs =>
      simp only [wfFields, Bool.and_eq_true, decide_eq_true_eq] at hwf
      simp only [valuesList, List.mem_cons] at hcv
      rcases hcv with rfl | hcv
      · rw [length_valuesOf]
        exact hwf.1.2
      · exact wfFields_values_length fs cs b hwf.2 cv hcv

theorem wfArr_slice (dt : DT) (a : PhysArr) (o' l' : Nat)
    (hwf : wfArr dt a = true) (h : o' + l' ≤ lenOf a) :
    wfArr dt (sliceArr a o' l') = true := by
  cases a with
  | prim w o l nulls data =>
    simp only [lenOf] at h
    show wfArr dt (.prim w (o + o') l' nulls data) = true
    cases hpw : primWidth dt with
    | none => exact absurd hwf (by simp [wfArr, hpw])
    | some w' =>
      simp only [wfArr, hpw, Bool.and_eq_true, decide_eq_true_eq, beq_iff_eq]
        at hwf ⊢
      refine ⟨⟨hwf.1.1, wfNulls_mono _ _ _ (by omega) hwf.1.2⟩, ?_⟩
      have hd := hwf.2
      have hmul : w * (o + o' + l') ≤ w * (o + l) :=
        Nat.mul_le_mul_left w (by omega)
      omega
  | boolA o l nulls data =>
    simp only [lenOf] at h
    show wfArr dt (.boolA (o + o') l' nulls data) = true
    cases dt <;> simp only [wfArr] at hwf ⊢ <;>
      first
      | (simp only [Bool.and_eq_true, decide_eq_true_eq] at hwf ⊢
         exact ⟨wfNulls_mono _ _ _ (by omega) hwf.1, by omega⟩)
      | exact hwf
  | bytesA o l nulls offs data =>
    simp only [lenOf] at h
    show wfArr dt (.bytesA (o + o') l' nulls offs data) = true
    cases dt <;> simp only [wfArr] at hwf ⊢ <;>
      first
      | (simp only [Bool.and_eq_true, decide_eq_true_eq] at hwf ⊢
         obtain ⟨⟨⟨hn, hol⟩, hch⟩, hdb⟩ := hwf
         have hmono := chainLe_mono offs hch (o + o' + l') (o + l) (by omega) (by omega)
         exact ⟨⟨⟨wfNulls_mono _ _ _ (by omega) hn, by omega⟩, hch⟩, by omega⟩)
      | exact hwf
  | listA o l nulls offs child =>
    simp only [lenOf] at h
    show wfArr dt (.listA (o + o') l' nulls offs child) = true
    cases dt with
    | listT f =>
      simp only [wfArr, Bool.and_eq_true, decide_eq_true_eq] at hwf ⊢
      obtain ⟨⟨⟨⟨hn, hol⟩, hch⟩, hcb⟩, hcw⟩ := hwf
      have hmono := chainLe_mono offs hch (o + o' + l') (o + l) (by omega) (by omega)
      exact ⟨⟨⟨⟨wfNulls_mono _ _ _ (by omega) hn, by omega⟩, hch⟩, by omega⟩, hcw⟩
    | _ => first | exact hwf | (simp [wfArr] at hwf)
  | mapA o l nulls offs k v =>
    simp only [lenOf] at h
    show wfArr dt (.mapA (o + o') l' nulls offs k v) = true
    cases dt with
    | mapT entries sorted =>
      match entries with
      | .mk en (.structT (.cons kf (.cons vf .nil))) eb =>
        simp only [wfArr, Bool.and_eq_true, decide_eq_true_eq] at hwf ⊢
        obtain ⟨⟨⟨⟨⟨⟨hn, hol⟩, hch⟩, hkb⟩, hvb⟩, hkw⟩, hvw⟩ := hwf
        have hmono := chainLe_mono offs hch (o + o' + l') (o + l) (by omega) (by omega)
        exact ⟨⟨⟨⟨⟨⟨wfNulls_mono _ _ _ (by omega) hn, by omega⟩, hch⟩, by omega⟩,
          by omega⟩, hkw⟩, hvw⟩
      | .mk en (.structT .nil) eb => simp [wfArr] at hwf
      | .mk en (.structT (.cons kf .nil)) eb => simp [wfArr] at hwf
      | .mk en (.structT (.cons kf (.cons vf (.cons x y)))) eb => simp [wfArr] at hwf
      | .mk en .int8 eb => simp [wfArr] at hwf
      | .mk en .int16 eb => simp [wfArr] at hwf
      | .mk en .int32 eb => simp [wfArr] at hwf
      | .mk en .int64 eb => simp [wfArr] at hwf
      | .mk en .uint8 eb => simp [wfArr] at hwf
      | .mk en .uint16 eb => simp [wfArr] at hwf
      | .mk en .uint32 eb => simp [wfArr] at hwf
      | .mk en .uint64 eb => simp [wfArr] at hwf
      | .mk en .float32 eb => simp [wfArr] at hwf
      | .mk en .float64 eb => simp [wfArr] at hwf
      | .mk en (.decimal128 p sc) eb => simp [wfArr] at hwf
      | .mk en .date32 eb => simp [wfArr] at hwf
      | .mk en .date64 eb => simp [wfArr] at hwf
      | .mk en (.tsSec tz) eb => simp [wfArr] at hwf
      | .mk en (.tsMs tz) eb => simp [wfArr] at hwf
      | .mk en (.tsUs tz) eb => simp [wfArr] at hwf
      | .mk en (.tsNs tz) eb => simp [wfArr] at hwf
      | .mk en .boolT eb => simp [wfArr] at hwf
      | .mk en .utf8 eb => simp [wfArr] at hwf
      | .mk en .binT eb => simp [wfArr] at hwf
      | .mk en (.listT f2) eb => simp [wfArr] at hwf
      | .mk en (.mapT e2 s2) eb => simp [wfArr] at hwf
    | _ => first | exact hwf | (simp [wfArr] at hwf)
  | structA o l nulls children =>
    simp only [lenOf] at h
    show wfArr dt (.structA (o + o') l' nulls children) = true
    cases dt with
    | structT fields =>
      simp only [wfArr, Bool.and_eq_true] at hwf ⊢
      exact ⟨wfNulls_mono _ _ _ (by omega) hwf.1,
        wfFields_mono fields children _ _ (by omega) hwf.2⟩
    | _ => first | exact hwf | (simp [wfArr] at hwf)

theorem prim_roundtrip (w o l : Nat) (nulls : Option (List Bool)) (data : Bytes)
    (rest : Bytes) (hn : wfNulls nulls (o + l) = true)
    (hd : w * (o + l) ≤ data.length) :
    ∃ a', readPrim w l
        ((writeNullsB nulls o l ++ (data.drop (w * o)).take (w * l)) ++ rest)
        = some (a', rest)
      ∧ lenOf a' = l
      ∧ valuesOf a' = valuesOf (.prim w o l nulls data) := by
  obtain ⟨nulls', hread, hvalid⟩ := readNullsB_write nulls o l
    (((data.drop (w * o)).take (w * l)) ++ rest) hn
  have hmul : w * (o + l) = w * o + w * l := by rw [Nat.mul_add]
  have hwlen : ((data.drop (w * o)).take (w * l)).length = w * l := by
    simp only [List.length_take, List.length_drop]
    omega
  refine ⟨.prim w 0 l nulls' ((data.drop (w * o)).take (w * l)), ?_, rfl, ?_⟩
  · unfold readPrim
    rw [List.append_assoc, hread]
    simp only [osome_bind]
    have hrd := readN_append ((data.drop (w * o)).take (w * l)) rest
    rw [hwlen] at hrd
    rw [hrd]
    rfl
  · simp only [valuesOf]
    apply List.map_congr_left
    intro i hi
    rw [List.mem_range] at hi
    rw [hvalid i hi]
    by_cases hv : validAt nulls o i
    · rw [if_pos hv, if_pos hv]
      have e1 : w * (o + i) = w * o + w * i := by ring
      have e2 : w * (o + i + 1) = w * (o + i) + w := by ring
      have hmul2 : w * (o + i + 1) ≤ w * (o + l) := Nat.mul_le_mul_left w (by omega)
      have hww := window_window data (w * o) (w * (o + i)) (w * (o + i) + w)
        (w * (o + l)) (by omega) (by omega) hd
      have h1 : w * (o + i) - w * o = w * i := by omega
      have h2 : w * (o + i) + w - w * (o + i) = w := by omega
      have h3 : w * (o + l) - w * o = w * l := by omega
      rw [h1, h2, h3] at hww
      rw [Nat.zero_add, hww]
    · rw [if_neg hv, if_neg hv]

theorem bool_roundtrip (o l : Nat) (nulls : Option (List Bool)) (data : List Bool)
    (rest : Bytes) (hn : wfNulls nulls (o + l) = true) (hd : o + l ≤ data.length) :
    ∃ a', (do
        let (nulls2, s1) ← readNullsB l
          ((writeNullsB nulls o l ++ packLsb0 ((data.drop o).take l)) ++ rest)
        let (bts, s2) ← readN ((l + 7) / 8) s1
        some ((.boolA 0 l nulls2 (unpackBits bts l) : PhysArr), s2)) = some (a', rest)
      ∧ lenOf a' = l
      ∧ valuesOf a' = valuesOf (.boolA o l nulls data) := by
  obtain ⟨nulls', hread, hvalid⟩ := readNullsB_write nulls o l
    (packLsb0 ((data.drop o).take l) ++ rest) hn
  have hwlen : ((data.drop o).take l).length = l := by
    simp only [List.length_take, List.length_drop]
    omega
  have hplen : (packLsb0 ((data.drop o).take l)).length = (l + 7) / 8 := by
    rw [Blaze.length_packLsb0, hwlen]
  refine ⟨.boolA 0 l nulls' (unpackBits (packLsb0 ((data.drop o).take l)) l),
    ?_, rfl, ?_⟩
  · rw [List.append_assoc, hread]
    simp only [osome_bind]
    have hrd := readN_append (packLsb0 ((data.drop o).take l)) rest
    rw [hplen] at hrd
    rw [hrd]
    rfl
  · simp only [valuesOf]
    apply List.map_congr_left
    intro i hi
    rw [List.mem_range] at hi
    rw [hvalid i hi]
    by_cases hv : validAt nulls o i
    · rw [if_pos hv, if_pos hv]
      unfold unpackBits
      rw [Nat.zero_add, range_map_getD l i _ false hi,
        Blaze.getBitLsb0_packLsb0 _ i (by omega),
        window_getD data o l i false hi hd]
    · rw [if_neg hv, if_neg hv]

theorem bytesL_roundtrip (o l : Nat) (nulls : Option (List Bool)) (offs : List Nat)
    (data : Bytes) (rest : Bytes) (hn : wfNulls nulls (o + l) = true)
    (ho : o + l + 1 ≤ offs.length) (hc : chainLe offs = true)
    (hd : offs.getD (o + l) 0 ≤ data.length) :
    ∃ a', readBytesL l
        ((writeNullsB nulls o l ++ ((lensOf offs o l).map write_len).flatten
          ++ (data.drop (offs.getD o 0)).take (offs.getD (o + l) 0 - offs.getD o 0))
          ++ rest)
        = some (a', rest)
      ∧ lenOf a' = l
      ∧ valuesOf a' = valuesOf (.bytesA o l nulls offs data) := by
  have hfirst : offs.getD o 0 ≤ offs.getD (o + l) 0 :=
    chainLe_mono offs hc o (o + l) (by omega) (by omega)
  obtain ⟨nulls', hread, hvalid⟩ := readNullsB_write nulls o l
    (((lensOf offs o l).map write_len).flatten
      ++ ((data.drop (offs.getD o 0)).take (offs.getD (o + l) 0 - offs.getD o 0)
        ++ rest)) hn
  have hlens := readLens_write (lensOf offs o l)
    ((data.drop (offs.getD o 0)).take (offs.getD (o + l) 0 - offs.getD o 0) ++ rest)
  rw [lensOf_length] at hlens
  have hsum : sumL (lensOf offs o l) = offs.getD (o + l) 0 - offs.getD o 0 :=
    sumL_lensOf offs o l hc ho
  have hdlen : ((data.drop (offs.getD o 0)).take
      (offs.getD (o + l) 0 - offs.getD o 0)).length
      = offs.getD (o + l) 0 - offs.getD o 0 :=
    window_length data _ _ hfirst hd
  refine ⟨.bytesA 0 l nulls' (cumsum 0 (lensOf offs o l))
    ((data.drop (offs.getD o 0)).take (offs.getD (o + l) 0 - offs.getD o 0)),
    ?_, rfl, ?_⟩
  · unfold readBytesL
    rw [List.append_assoc, List.append_assoc, hread]
    simp only [osome_bind]
    rw [hlens]
    simp only [osome_bind]
    have hrd := readN_append
      ((data.drop (offs.getD o 0)).take (offs.getD (o + l) 0 - offs.getD o 0)) rest
    rw [hdlen] at hrd
    rw [hsum, hrd]
    rfl
  · simp only [valuesOf]
    apply List.map_congr_left
    intro i hi
    rw [List.mem_range] at hi
    rw [hvalid i hi]
    by_cases hv : validAt nulls o i
    · rw [if_pos hv, if_pos hv]
      rw [Nat.zero_add]
      have hgi : (cumsum 0 (lensOf offs o l)).getD i 0
          = offs.getD (o + i) 0 - offs.getD o 0 :=
        cumsum_lensOf_getD offs o l hc ho i (by omega)
      have hgi1 : (cumsum 0 (lensOf offs o l)).getD (i + 1) 0
          = offs.getD (o + i + 1) 0 - offs.getD o 0 :=
        cumsum_lensOf_getD offs o l hc ho (i + 1) (by omega)
      rw [hgi, hgi1]
      have hm1 : offs.getD o 0 ≤ offs.getD (o + i) 0 :=
        chainLe_mono offs hc o (o + i) (by omega) (by omega)
      have hm2 : offs.getD (o + i) 0 ≤ offs.getD (o + i + 1) 0 :=
        chainLe_adj offs hc (o + i) (by omega)
      have hm3 : offs.getD (o + i + 1) 0 ≤ offs.getD (o + l) 0 :=
        chainLe_mono offs hc (o + i + 1) (o + l) (by omega) (by omega)
      have hsub : offs.getD (o + i + 1) 0 - offs.getD o 0
          - (offs.getD (o + i) 0 - offs.getD o 0)
          = offs.getD (o + i + 1) 0 - offs.getD (o + i) 0 := by omega
      rw [hsub, window_window data (offs.getD o 0) (offs.getD (o + i) 0)
        (offs.getD (o + i + 1) 0) (offs.getD (o + l) 0) hm1 hm3 hd]
    · rw [if_neg hv, if_neg hv]


/-- Fixed-width dispatch: any data type with a byte width round-trips through
the primitive array codec (given its reduced read and write equations). -/
theorem prim_dt_roundtrip (dt : DT) (w' : Nat) (hpw : primWidth dt = some w')
    (hrd : ∀ rows s, read_array (namelessDT dt) rows s = readPrim w' rows s)
    (hweq : ∀ (w o l : Nat) (nulls : Option (List Bool)) (data : Bytes),
      write_array dt (.prim w o l nulls data)
        = if w = w' then
            some (writeNullsB nulls o l ++ (data.drop (w' * o)).take (w' * l))
          else none) :
    ∀ (a : PhysArr) (bs rest : Bytes), wfArr dt a = true → write_array dt a = some bs →
      ∃ a', read_array (namelessDT dt) (lenOf a) (bs ++ rest) = some (a', rest)
        ∧ lenOf a' = lenOf a ∧ valuesOf a' = valuesOf a := by
  intro a bs rest hwf hw
  cases a with
  | prim w o l nulls data =>
    simp only [wfArr, hpw, Bool.and_eq_true, beq_iff_eq, decide_eq_true_eq] at hwf
    obtain ⟨⟨hww', hn⟩, hd⟩ := hwf
    subst hww'
    rw [hweq, if_pos rfl] at hw
    injection hw with hbs
    subst hbs
    simp only [lenOf]
    rw [hrd]
    exact prim_roundtrip _ o l nulls data rest hn hd
  | boolA o l nulls data =>
    cases dt <;>
      solve
      | simp [wfArr, primWidth] at hwf
      | simp [primWidth] at hpw
  | bytesA o l nulls offs data =>
    cases dt <;>
      solve
      | simp [wfArr, primWidth] at hwf
      | simp [primWidth] at hpw
  | listA o l nulls offs child =>
    cases dt <;>
      solve
      | simp [wfArr, primWidth] at hwf
      | simp [primWidth] at hpw
  | mapA o l nulls offs k v =>
    cases dt <;>
      solve
      | simp [wfArr, primWidth] at hwf
      | simp [primWidth] at hpw
  | structA o l nulls children =>
    cases dt <;>
      solve
      | simp [wfArr, primWidth] at hwf
      | simp [primWidth] at hpw


mutual

/-- Writing an array and reading it back (under the name-stripped data type,
as `read_batch` decodes it) reproduces the logical length and the logical
values, leaving exactly the trailing bytes. -/
theorem write_read_array : (dt : DT) → ∀ (a : PhysArr) (bs rest : Bytes),
    wfArr dt a = true → write_array dt a = some bs →
    ∃ a', read_array (namelessDT dt) (lenOf a) (bs ++ rest) = some (a', rest)
      ∧ lenOf a' = lenOf a ∧ valuesOf a' = valuesOf a
  | .int8 => prim_dt_roundtrip .int8 1 rfl (fun _ _ => rfl) (fun _ _ _ _ _ => rfl)
  | .int16 => prim_dt_roundtrip .int16 2 rfl (fun _ _ => rfl) (fun _ _ _ _ _ => rfl)
  | .int32 => prim_dt_roundtrip .int32 4 rfl (fun _ _ => rfl) (fun _ _ _ _ _ => rfl)
  | .int64 => prim_dt_roundtrip .int64 8 rfl (fun _ _ => rfl) (fun _ _ _ _ _ => rfl)
  | .uint8 => prim_dt_roundtrip .uint8 1 rfl (fun _ _ => rfl) (fun _ _ _ _ _ => rfl)
  | .uint16 => prim_dt_roundtrip .uint16 2 rfl (fun _ _ => rfl) (fun _ _ _ _ _ => rfl)
  | .uint32 => prim_dt_roundtrip .uint32 4 rfl (fun _ _ => rfl) (fun _ _ _ _ _ => rfl)
  | .uint64 => prim_dt_roundtrip .uint64 8 rfl (fun _ _ => rfl) (fun _ _ _ _ _ => rfl)
  | .float32 => prim_dt_roundtrip .float32 4 rfl (fun _ _ => rfl) (fun _ _ _ _ _ => rfl)
  | .float64 => prim_dt_roundtrip .float64 8 rfl (fun _ _ => rfl) (fun _ _ _ _ _ => rfl)
  | .decimal128 p sc =>
    prim_dt_roundtrip (.decimal128 p sc) 16 rfl (fun _ _ => rfl) (fun _ _ _ _ _ => rfl)
  | .date32 => prim_dt_roundtrip .date32 4 rfl (fun _ _ => rfl) (fun _ _ _ _ _ => rfl)
  | .date64 => prim_dt_roundtrip .date64 8 rfl (fun _ _ => rfl) (fun _ _ _ _ _ => rfl)
  | .tsSec tz =>
    prim_dt_roundtrip (.tsSec tz) 8 rfl (fun _ _ => rfl) (fun _ _ _ _ _ => rfl)
  | .tsMs tz =>
    prim_dt_roundtrip (.tsMs tz) 8 rfl (fun _ _ => rfl) (fun _ _ _ _ _ => rfl)
  | .tsUs tz =>
    prim_dt_roundtrip (.tsUs tz) 8 rfl (fun _ _ => rfl) (fun _ _ _ _ _ => rfl)
  | .tsNs tz =>
    prim_dt_roundtrip (.tsNs tz) 8 rfl (fun _ _ => rfl) (fun _ _ _ _ _ => rfl)
  | .boolT => by
    intro a bs rest hwf hw
    cases a with
    | boolA o l nulls data =>
      simp only [wfArr, Bool.and_eq_true, decide_eq_true_eq] at hwf
      obtain ⟨hn, hd⟩ := hwf
      injection hw with hbs
      subst hbs
      exact bool_roundtrip o l nulls data rest hn hd
    | prim w o l nulls data => exact absurd hwf (by simp [wfArr, primWidth])
    | bytesA o l nulls offs data => exact absurd hwf (by simp [wfArr])
    | listA o l nulls offs child => exact absurd hwf (by simp [wfArr])
    | mapA o l nulls offs k v => exact absurd hwf (by simp [wfArr])
    | structA o l nulls children => exact absurd hwf (by simp [wfArr])
  | .utf8 => by
    intro a bs rest hwf hw
    cases a with
    | bytesA o l nulls offs data =>
      simp only [wfArr, Bool.and_eq_true, decide_eq_true_eq] at hwf
      obtain ⟨⟨⟨hn, ho⟩, hc⟩, hd⟩ := hwf
      injection hw with hbs
      subst hbs
      exact bytesL_roundtrip o l nulls offs data rest hn ho hc hd
    | prim w o l nulls data => exact absurd hwf (by simp [wfArr, primWidth])
    | boolA o l nulls data => exact absurd hwf (by simp [wfArr])
    | listA o l nulls offs child => exact absurd hwf (by simp [wfArr])
    | mapA o l nulls offs k v => exact absurd hwf (by simp [wfArr])
    | structA o l nulls children => exact absurd hwf (by simp [wfArr])
  | .binT => by
    intro a bs rest hwf hw
    cases a with
    | bytesA o l nulls offs data =>
      simp only [wfArr, Bool.and_eq_true, decide_eq_true_eq] at hwf
      obtain ⟨⟨⟨hn, ho⟩, hc⟩, hd⟩ := hwf
      injection hw with hbs
      subst hbs
      exact bytesL_roundtrip o l nulls offs data rest hn ho hc hd
    | prim w o l nulls data => exact absurd hwf (by simp [wfArr, primWidth])
    | boolA o l nulls data => exact absurd hwf (by simp [wfArr])
    | listA o l nulls offs child => exact absurd hwf (by simp [wfArr])
    | mapA o l nulls offs k v => exact absurd hwf (by simp [wfArr])
    | structA o l nulls children => exact absurd hwf (by simp [wfArr])
  | .listT f => by
    intro a bs rest hwf hw
    cases f with
    | mk nm d nb =>
      cases a with
      | listA o l nulls offs child =>
        simp only [wfArr, fdt, Bool.and_eq_true, decide_eq_true_eq] at hwf
        obtain ⟨⟨⟨⟨hn, ho⟩, hc⟩, hcb⟩, hcw⟩ := hwf
        replace hw : (do
            let body ← write_array d
              (sliceArr child (offs.getD o 0) (offs.getD (o + l) 0 - offs.getD o 0))
            some (writeNullsB nulls o l ++ ((lensOf offs o l).map write_len).flatten
              ++ body)) = some bs := hw
        cases hb : write_array d
            (sliceArr child (offs.getD o 0) (offs.getD (o + l) 0 - offs.getD o 0)) with
        | none =>
          rw [hb] at hw
          exact Option.noConfusion hw
        | some body =>
          rw [hb] at hw
          simp only [osome_bind] at hw
          injection hw with hbs
          subst hbs
          have hfirst : offs.getD o 0 ≤ offs.getD (o + l) 0 :=
            chainLe_mono offs hc o (o + l) (by omega) (by omega)
          have hslw : wfArr d (sliceArr child (offs.getD o 0)
              (offs.getD (o + l) 0 - offs.getD o 0)) = true :=
            wfArr_slice d child _ _ hcw (by omega)
          obtain ⟨child', hrc, hlc, hvc⟩ := write_read_array d
            (sliceArr child (offs.getD o 0) (offs.getD (o + l) 0 - offs.getD o 0))
            body rest hslw hb
          rw [lenOf_slice] at hrc
          obtain ⟨nulls', hread, hvalid⟩ := readNullsB_write nulls o l
            (((lensOf offs o l).map write_len).flatten ++ (body ++ rest)) hn
          have hlens := readLens_write (lensOf offs o l) (body ++ rest)
          rw [lensOf_length] at hlens
          have hsum : sumL (lensOf offs o l) = offs.getD (o + l) 0 - offs.getD o 0 :=
            sumL_lensOf offs o l hc ho
          refine ⟨.listA 0 l nulls' (cumsum 0 (lensOf offs o l)) child', ?_, rfl, ?_⟩
          · show (do
              let (nulls2, s1) ← readNullsB l
                ((writeNullsB nulls o l ++ ((lensOf offs o l).map write_len).flatten
                  ++ body) ++ rest)
              let (lens, s2) ← readLens l s1
              let (child2, s3) ← read_array (namelessDT d) (sumL lens) s2
              some ((PhysArr.listA 0 l nulls2 (cumsum 0 lens) child2), s3))
              = some (.listA 0 l nulls' (cumsum 0 (lensOf offs o l)) child', rest)
            rw [List.append_assoc, List.append_assoc, hread]
            simp only [osome_bind]
            rw [hlens]
            simp only [osome_bind]
            rw [hsum, hrc]
            rfl
          · simp only [valuesOf]
            apply List.map_congr_left
            intro i hi
            rw [List.mem_range] at hi
            rw [hvalid i hi]
            by_cases hv : validAt nulls o i
            · rw [if_pos hv, if_pos hv]
              rw [Nat.zero_add]
              have hgi : (cumsum 0 (lensOf offs o l)).getD i 0
                  = offs.getD (o + i) 0 - offs.getD o 0 :=
                cumsum_lensOf_getD offs o l hc ho i (by omega)
              have hgi1 : (cumsum 0 (lensOf offs o l)).getD (i + 1) 0
                  = offs.getD (o + i + 1) 0 - offs.getD o 0 :=
                cumsum_lensOf_getD offs o l hc ho (i + 1) (by omega)
              rw [hgi, hgi1]
              rw [valuesOf_slice child _ _ (by omega)] at hvc
              rw [hvc]
              have hm1 : offs.getD o 0 ≤ offs.getD (o + i) 0 :=
                chainLe_mono offs hc o (o + i) (by omega) (by omega)
              have hm2 : offs.getD (o + i) 0 ≤ offs.getD (o + i + 1) 0 :=
                chainLe_adj offs hc (o + i) (by omega)
              have hm3 : offs.getD (o + i + 1) 0 ≤ offs.getD (o + l) 0 :=
                chainLe_mono offs hc (o + i + 1) (o + l) (by omega) (by omega)
              have hsub : offs.getD (o + i + 1) 0 - offs.getD o 0
                  - (offs.getD (o + i) 0 - offs.getD o 0)
                  = offs.getD (o + i + 1) 0 - offs.getD (o + i) 0 := by omega
              rw [hsub, window_window (valuesOf child) (offs.getD o 0)
                (offs.getD (o + i) 0) (offs.getD (o + i + 1) 0) (offs.getD (o + l) 0)
                hm1 hm3 (by rw [length_valuesOf]; exact hcb)]
            · rw [if_neg hv, if_neg hv]
      | prim w o l nulls data => exact absurd hwf (by simp [wfArr, primWidth])
      | boolA o l nulls data => exact absurd hwf (by simp [wfArr])
      | bytesA o l nulls offs data => exact absurd hwf (by simp [wfArr])
      | mapA o l nulls offs k v => exact absurd hwf (by simp [wfArr])
      | structA o l nulls children => exact absurd hwf (by simp [wfArr])
  | .mapT entries sorted => by
    intro a bs rest hwf hw
    cases entries with
    | mk en edt eb =>
      cases a with
      | mapA o l nulls offs k v =>
        cases edt with
        | structT efl =>
          cases efl with
          | nil => exact absurd hwf (by simp [wfArr])
          | cons kf efl2 =>
            cases efl2 with
            | nil => exact absurd hwf (by simp [wfArr])
            | cons vf efl3 =>
              cases efl3 with
              | cons g efl4 => exact absurd hwf (by simp [wfArr])
              | nil =>
                cases kf with
                | mk kn kd knb =>
                  cases vf with
                  | mk vn vd vnb =>
                    simp only [wfArr, fdt, Bool.and_eq_true, decide_eq_true_eq] at hwf
                    obtain ⟨⟨⟨⟨⟨⟨hn, ho⟩, hc⟩, hkb⟩, hvb⟩, hkw⟩, hvw⟩ := hwf
                    replace hw : (do
                        let kb ← write_array kd (sliceArr k (offs.getD o 0)
                          (offs.getD (o + l) 0 - offs.getD o 0))
                        let vb ← write_array vd (sliceArr v (offs.getD o 0)
                          (offs.getD (o + l) 0 - offs.getD o 0))
                        some (writeNullsB nulls o l
                          ++ ((lensOf offs o l).map write_len).flatten ++ kb ++ vb))
                        = some bs := hw
                    cases hbk : write_array kd (sliceArr k (offs.getD o 0)
                        (offs.getD (o + l) 0 - offs.getD o 0)) with
                    | none =>
                      rw [hbk] at hw
                      exact Option.noConfusion hw
                    | some kx =>
                      rw [hbk] at hw
                      simp only [osome_bind] at hw
                      cases hbv : write_array vd (sliceArr v (offs.getD o 0)
                          (offs.getD (o + l) 0 - offs.getD o 0)) with
                      | none =>
                        rw [hbv] at hw
                        exact Option.noConfusion hw
                      | some vx =>
                        rw [hbv] at hw
                        simp only [osome_bind] at hw
                        injection hw with hbs
                        subst hbs
                        have hfirst : offs.getD o 0 ≤ offs.getD (o + l) 0 :=
                          chainLe_mono offs hc o (o + l) (by omega) (by omega)
                        have hslk : wfArr kd (sliceArr k (offs.getD o 0)
                            (offs.getD (o + l) 0 - offs.getD o 0)) = true :=
                          wfArr_slice kd k _ _ hkw (by omega)
                        have hslv : wfArr vd (sliceArr v (offs.getD o 0)
                            (offs.getD (o + l) 0 - offs.getD o 0)) = true :=
                          wfArr_slice vd v _ _ hvw (by omega)
                        obtain ⟨k', hrk, hlk, hvk⟩ := write_read_array kd
                          (sliceArr k (offs.getD o 0)
                            (offs.getD (o + l) 0 - offs.getD o 0))
                          kx (vx ++ rest) hslk hbk
                        rw [lenOf_slice] at hrk
                        obtain ⟨v', hrv, hlv, hvv⟩ := write_read_array vd
                          (sliceArr v (offs.getD o 0)
                            (offs.getD (o + l) 0 - offs.getD o 0))
                          vx rest hslv hbv
                        rw [lenOf_slice] at hrv
                        obtain ⟨nulls', hread, hvalid⟩ := readNullsB_write nulls o l
                          (((lensOf offs o l).map write_len).flatten
                            ++ (kx ++ (vx ++ rest))) hn
                        have hlens := readLens_write (lensOf offs o l)
                          (kx ++ (vx ++ rest))
                        rw [lensOf_length] at hlens
                        have hsum : sumL (lensOf offs o l)
                            = offs.getD (o + l) 0 - offs.getD o 0 :=
                          sumL_lensOf offs o l hc ho
                        refine ⟨.mapA 0 l nulls' (cumsum 0 (lensOf offs o l)) k' v',
                          ?_, rfl, ?_⟩
                        · show (do
                            let (nulls2, s1) ← readNullsB l
                              ((writeNullsB nulls o l
                                ++ ((lensOf offs o l).map write_len).flatten
                                ++ kx ++ vx) ++ rest)
                            let (lens, s2) ← readLens l s1
                            let (k2, s3) ← read_array (namelessDT kd) (sumL lens) s2
                            let (v2, s4) ← read_array (namelessDT vd) (sumL lens) s3
                            some ((PhysArr.mapA 0 l nulls2 (cumsum 0 lens) k2 v2), s4))
                            = some (.mapA 0 l nulls' (cumsum 0 (lensOf offs o l)) k' v',
                              rest)
                          rw [List.append_assoc, List.append_assoc, List.append_assoc,
                            hread]
                          simp only [osome_bind]
                          rw [hlens]
                          simp only [osome_bind]
                          rw [hsum, hrk]
                          simp only [osome_bind]
                          rw [hrv]
                          rfl
                        · simp only [valuesOf]
                          apply List.map_congr_left
                          intro i hi
                          rw [List.mem_range] at hi
                          rw [hvalid i hi]
                          by_cases hv : validAt nulls o i
                          · rw [if_pos hv, if_pos hv]
                            rw [Nat.zero_add]
                            have hgi : (cumsum 0 (lensOf offs o l)).getD i 0
                                = offs.getD (o + i) 0 - offs.getD o 0 :=
                              cumsum_lensOf_getD offs o l hc ho i (by omega)
                            have hgi1 : (cumsum 0 (lensOf offs o l)).getD (i + 1) 0
                                = offs.getD (o + i + 1) 0 - offs.getD o 0 :=
                              cumsum_lensOf_getD offs o l hc ho (i + 1) (by omega)
                            rw [hgi, hgi1]
                            rw [valuesOf_slice k _ _ (by omega)] at hvk
                            rw [valuesOf_slice v _ _ (by omega)] at hvv
                            rw [hvk, hvv]
                            have hm1 : offs.getD o 0 ≤ offs.getD (o + i) 0 :=
                              chainLe_mono offs hc o (o + i) (by omega) (by omega)
                            have hm2 : offs.getD (o + i) 0 ≤ offs.getD (o + i + 1) 0 :=
                              chainLe_adj offs hc (o + i) (by omega)
                            have hm3 : offs.getD (o + i + 1) 0 ≤ offs.getD (o + l) 0 :=
                              chainLe_mono offs hc (o + i + 1) (o + l) (by omega)
                                (by omega)
                            have hsub : offs.getD (o + i + 1) 0 - offs.getD o 0
                                - (offs.getD (o + i) 0 - offs.getD o 0)
                                = offs.getD (o + i + 1) 0 - offs.getD (o + i) 0 := by
                              omega
                            rw [hsub, window_window (valuesOf k) (offs.getD o 0)
                              (offs.getD (o + i) 0) (offs.getD (o + i + 1) 0)
                              (offs.getD (o + l) 0) hm1 hm3
                              (by rw [length_valuesOf]; exact hkb),
                              window_window (valuesOf v) (offs.getD o 0)
                              (offs.getD (o + i) 0) (offs.getD (o + i + 1) 0)
                              (offs.getD (o + l) 0) hm1 hm3
                              (by rw [length_valuesOf]; exact hvb)]
                          · rw [if_neg hv, if_neg hv]
        | _ => exact absurd hwf (by simp [wfArr])
      | prim w o l nulls data => exact absurd hwf (by simp [wfArr, primWidth])
      | boolA o l nulls data => exact absurd hwf (by simp [wfArr])
      | bytesA o l nulls offs data => exact absurd hwf (by simp [wfArr])
      | listA o l nulls offs child => exact absurd hwf (by simp [wfArr])
      | structA o l nulls children => exact absurd hwf (by simp [wfArr])
  | .structT fields => by
    intro a bs rest hwf hw
    cases a with
    | structA o l nulls children =>
      simp only [wfArr, Bool.and_eq_true] at hwf
      obtain ⟨hn, hf⟩ := hwf
      replace hw : (do
          let body ← write_fields fields children o l
          some (writeNullsB nulls o l ++ body)) = some bs := hw
      cases hb : write_fields fields children o l with
      | none =>
        rw [hb] at hw
        exact Option.noConfusion hw
      | some body =>
        rw [hb] at hw
        simp only [osome_bind] at hw
        injection hw with hbs
        subst hbs
        obtain ⟨nulls', hread, hvalid⟩ := readNullsB_write nulls o l (body ++ rest) hn
        obtain ⟨cs', hrf, hvf⟩ := write_read_fields fields children o l body rest hf hb
        refine ⟨.structA 0 l nulls' cs', ?_, rfl, ?_⟩
        · show (do
            let (nulls2, s1) ← readNullsB l ((writeNullsB nulls o l ++ body) ++ rest)
            let (children2, s2) ← read_fields (namelessFields fields) l s1
            some ((PhysArr.structA 0 l nulls2 children2), s2))
            = some (.structA 0 l nulls' cs', rest)
          rw [List.append_assoc, hread]
          simp only [osome_bind]
          rw [hrf]
          rfl
        · simp only [valuesOf]
          apply List.map_congr_left
          intro i hi
          rw [List.mem_range] at hi
          rw [hvalid i hi]
          by_cases hv : validAt nulls o i
          · rw [if_pos hv, if_pos hv]
            rw [Nat.zero_add, hvf, List.map_map]
            refine congrArg _ (congrArg _ ?_)
            apply List.map_congr_left
            intro cv hcv
            show ((cv.drop o).take l).getD i none = cv.getD (o + i) none
            exact window_getD cv o l i none hi
              (wfFields_values_length fields children (o + l) hf cv hcv)
          · rw [if_neg hv, if_neg hv]
    | prim w o l nulls data => exact absurd hwf (by simp [wfArr, primWidth])
    | boolA o l nulls data => exact absurd hwf (by simp [wfArr])
    | bytesA o l nulls offs data => exact absurd hwf (by simp [wfArr])
    | listA o l nulls offs child => exact absurd hwf (by simp [wfArr])
    | mapA o l nulls offs k v => exact absurd hwf (by simp [wfArr])
termination_by dt => sizeDT dt
decreasing_by
  all_goals simp only [sizeDT, sizeField, sizeFields]
  all_goals omega

/-- Writing struct children (each as its parent-window slice) and reading
them back reproduces each child's values restricted to the window. -/
theorem write_read_fields : (fs : FieldList) →
    ∀ (cs : ArrList) (o l : Nat) (bs rest : Bytes),
    wfFields fs cs (o + l) = true → write_fields fs cs o l = some bs →
    ∃ cs', read_fields (namelessFields fs) l (bs ++ rest) = some (cs', rest)
      ∧ valuesList cs' = (valuesList cs).map (fun cv => (cv.drop o).take l)
  | .nil => by
    intro cs o l bs rest hwf hw
    cases cs with
    | cons c cs => exact absurd hwf (by simp [wfFields])
    | nil =>
      injection hw with hbs
      subst hbs
      exact ⟨.nil, rfl, rfl⟩
  | .cons f fs => by
    intro cs o l bs rest hwf hw
    cases f with
    | mk nm d nb =>
      cases cs with
      | nil => exact absurd hwf (by simp [wfFields])
      | cons c cs =>
        simp only [wfFields, fdt, Bool.and_eq_true, decide_eq_true_eq] at hwf
        obtain ⟨⟨hcw, hcl⟩, hfs⟩ := hwf
        replace hw : (do
            let x ← write_array d (sliceArr c o l)
            let y ← write_fields fs cs o l
            some (x ++ y)) = some bs := hw
        cases hx : write_array d (sliceArr c o l) with
        | none =>
          rw [hx] at hw
          exact Option.noConfusion hw
        | some x =>
          rw [hx] at hw
          simp only [osome_bind] at hw
          cases hy : write_fields fs cs o l with
          | none =>
            rw [hy] at hw
            exact Option.noConfusion hw
          | some y =>
            rw [hy] at hw
            simp only [osome_bind] at hw
            injection hw with hbs
            subst hbs
            have hslw : wfArr d (sliceArr c o l) = true :=
              wfArr_slice d c o l hcw (by omega)
            obtain ⟨c', hrc, hlc, hvc⟩ := write_read_array d (sliceArr c o l) x
              (y ++ rest) hslw hx
            rw [lenOf_slice] at hrc
            obtain ⟨cs', hrf, hvf⟩ := write_read_fields fs cs o l y rest hfs hy
            refine ⟨.cons c' cs', ?_, ?_⟩
            · show (do
                let (c2, s1) ← read_array (namelessDT d) l ((x ++ y) ++ rest)
                let (cs2, s2) ← read_fields (namelessFields fs) l s1
                some ((ArrList.cons c2 cs2), s2)) = some (.cons c' cs', rest)
              rw [List.append_assoc, hrc]
              simp only [osome_bind]
              rw [hrf]
              rfl
            · rw [valuesOf_slice c o l (by omega)] at hvc
              show valuesOf c' :: valuesList cs'
                = (valuesOf c :: valuesList cs).map (fun cv => (cv.drop o).take l)
              rw [List.map_cons, hvc, hvf]
termination_by fs => sizeFields fs
decreasing_by
  all_goals simp only [sizeDT, sizeField, sizeFields]
  all_goals omega

end


/-- A record batch in physical form: the schema's fields, one column per
field, and the row count (`RecordBatchOptions::with_row_count`). -/
structure RecordBatchM where
  fields : List FieldT
  columns : List PhysArr
  numRows : Nat

/-- Schema/columns agreement: counts match, every column is well-formed for
its field's data type and has the batch's row count as logical length. -/
def wfCols : List FieldT → List PhysArr → Nat → Bool
  | [], [], _ => true
  | f :: fs, c :: cs, n => wfArr (fdt f) c && (lenOf c == n) && wfCols fs cs n
  | _, _, _ => false

/-- Batch well-formedness. -/
def wfBatch (b : RecordBatchM) : Bool := wfCols b.fields b.columns b.numRows

/-- The logical contents of a batch: per column, one optional value per row
(`none` marks a null position). -/
def batchValues (b : RecordBatchM) : List (List (Option LVal)) :=
  b.columns.map valuesOf

/-- The serialized columns, in order (the `for column in batch.columns()`
loop). -/
def writeArrays : List FieldT → List PhysArr → Option Bytes
  | [], [] => some []
  | f :: fs, c :: cs => do
    let x ← write_array (fdt f) c
    let y ← writeArrays fs cs
    some (x ++ y)
  | _, _ => none

/-- The uncompressed `write_batch` stream: column count, row count, each
column's descriptor, the column-nullable bits packed Lsb0, then the
serialized columns. -/
def writeBatchPayload (b : RecordBatchM) : Option Bytes := do
  let arrs ← writeArrays b.fields b.columns
  some (write_len b.columns.length ++ (write_len b.numRows
    ++ ((b.fields.map (fun f => write_data_type (fdt f))).flatten
      ++ (Blaze.packLsb0 (b.fields.map fnull) ++ arrs))))

/-- Per-column data types read back (the `for _ in 0..num_columns` loop). -/
def readDts : Nat → Bytes → Option (List DT × Bytes)
  | 0, s => some ([], s)
  | n + 1, s => do
    let (d, s1) ← read_data_type s
    let (ds, s2) ← readDts n s1
    some (d :: ds, s2)

/-- Columns read back, one per decoded data type, each with `num_rows`
rows. -/
def readArrays : List DT → Nat → Bytes → Option (List PhysArr × Bytes)
  | [], _, s => some ([], s)
  | d :: ds, rows, s => do
    let (a, s1) ← read_array d rows s
    let (cs2, s2) ← readArrays ds rows s1
    some (a :: cs2, s2)

/-- The uncompressed `read_batch` stream: rebuild the schema with empty
names and the decoded nullable bits, then read each column. -/
def readBatchPayload (s : Bytes) : Option RecordBatchM := do
  let (ncols, s1) ← read_len s
  let (nrows, s2) ← read_len s1
  let (dts, s3) ← readDts ncols s2
  let (nbytes, s4) ← readN ((ncols + 7) / 8) s3
  let (cols, _) ← readArrays dts nrows s4
  some ⟨List.zipWith (fun d nb => FieldT.mk [] d nb) dts (unpackBits nbytes ncols),
    cols, nrows⟩

/-- Modelled from the spec: the zstd frame is lossless, so the stand-in
compressor length-prefixes the payload. -/
def compressM (p : Bytes) : Bytes := write_len p.length ++ p

/-- Modelled from the spec: decompression recovers the payload exactly. -/
def decompressM (s : Bytes) : Option Bytes := do
  let (n, s1) ← read_len s
  let (p, _) ← readN n s1
  some p

/-- `write_batch`: serialize the batch, optionally compressing the
stream. -/
def write_batch (b : RecordBatchM) (compress : Bool) : Option Bytes := do
  let payload ← writeBatchPayload b
  some (if compress then compressM payload else payload)

/-- `read_batch`: optionally decompress, then decode the batch. -/
def read_batch (s : Bytes) (compress : Bool) : Option RecordBatchM := do
  let payload ← if compress then decompressM s else some s
  readBatchPayload payload

theorem decompress_compress (p : Bytes) : decompressM (compressM p) = some p := by
  unfold decompressM compressM
  rw [read_write_len]
  simp only [osome_bind]
  have hrn := readN_append p []
  rw [List.append_nil] at hrn
  rw [hrn]
  rfl

theorem readDts_write (fs : List FieldT) (rest : Bytes) :
    readDts fs.length ((fs.map (fun f => write_data_type (fdt f))).flatten ++ rest)
      = some (fs.map (fun f => namelessDT (fdt f)), rest) := by
  induction fs with
  | nil => rfl
  | cons f fs ih =>
    show readDts (fs.length + 1) ((write_data_type (fdt f)
      ++ (fs.map (fun g => write_data_type (fdt g))).flatten) ++ rest) = _
    unfold readDts
    rw [List.append_assoc, read_write_data_type]
    simp only [osome_bind]
    rw [ih]
    rfl

theorem wfCols_length : (fs : List FieldT) → ∀ (cs : List PhysArr) (n : Nat),
    wfCols fs cs n = true → fs.length = cs.length
  | [] => by
    intro cs n h
    cases cs with
    | nil => rfl
    | cons c cs => exact absurd h (by simp [wfCols])
  | f :: fs => by
    intro cs n h
    cases cs with
    | nil => exact absurd h (by simp [wfCols])
    | cons c cs =>
      simp only [wfCols, Bool.and_eq_true] at h
      simp only [List.length_cons, wfCols_length fs cs n h.2]

theorem readArrays_write (fs : List FieldT) (cs : List PhysArr) (n : Nat)
    (bs rest : Bytes) (hwf : wfCols fs cs n = true)
    (hw : writeArrays fs cs = some bs) :
    ∃ cs', readArrays (fs.map (fun f => namelessDT (fdt f))) n (bs ++ rest)
        = some (cs', rest)
      ∧ cs'.map valuesOf = cs.map valuesOf ∧ cs'.length = cs.length := by
  induction fs generalizing cs bs with
  | nil =>
    cases cs with
    | cons c cs => exact absurd hw (by simp [writeArrays])
    | nil =>
      injection hw with hbs
      subst hbs
      exact ⟨[], rfl, rfl, rfl⟩
  | cons f fs ih =>
    cases cs with
    | nil => exact absurd hw (by simp [writeArrays])
    | cons c cs =>
      simp only [wfCols, Bool.and_eq_true, beq_iff_eq] at hwf
      obtain ⟨⟨hcw, hcl⟩, hfs⟩ := hwf
      replace hw : (do
          let x ← write_array (fdt f) c
          let y ← writeArrays fs cs
          some (x ++ y)) = some bs := hw
      cases hx : write_array (fdt f) c with
      | none =>
        rw [hx] at hw
        exact Option.noConfusion hw
      | some x =>
        rw [hx] at hw
        simp only [osome_bind] at hw
        cases hy : writeArrays fs cs with
        | none =>
          rw [hy] at hw
          exact Option.noConfusion hw
        | some y =>
          rw [hy] at hw
          simp only [osome_bind] at hw
          injection hw with hbs
          subst hbs
          obtain ⟨c', hrc, hlc, hvc⟩ := write_read_array (fdt f) c x (y ++ rest)
            hcw hx
          rw [hcl] at hrc
          obtain ⟨cs', hrf, hvcs, hlcs⟩ := ih cs y hfs hy
          refine ⟨c' :: cs', ?_, ?_, ?_⟩
          · show (do
              let (a, s1) ← read_array (namelessDT (fdt f)) n ((x ++ y) ++ rest)
              let (cs2, s2) ← readArrays (fs.map (fun g => namelessDT (fdt g))) n s1
              some (a :: cs2, s2)) = some (c' :: cs', rest)
            rw [List.append_assoc, hrc]
            simp only [osome_bind]
            rw [hrf]
            rfl
          · show valuesOf c' :: cs'.map valuesOf = valuesOf c :: cs.map valuesOf
            rw [hvc, hvcs]
          · simp only [List.length_cons, hlcs]

theorem range_map_getD_eq (l : List Bool) :
    (List.range l.length).map (fun i => l.getD i false) = l := by
  apply List.ext_getElem?
  intro i
  rw [List.getElem?_map]
  by_cases hi : i < l.length
  · rw [List.getElem?_range hi, List.getElem?_eq_getElem hi]
    simp [List.getD, List.get?_eq_getElem?, List.getElem?_eq_getElem hi]
  · rw [List.getElem?_eq_none (by simp; omega), List.getElem?_eq_none (by omega)]
    rfl

theorem unpack_pack (bits : List Bool) :
    unpackBits (Blaze.packLsb0 bits) bits.length = bits := by
  unfold unpackBits
  have hcong : ∀ i ∈ List.range bits.length,
      getBitLsb0 (Blaze.packLsb0 bits) i = bits.getD i false := by
    intro i hi
    rw [List.mem_range] at hi
    exact Blaze.getBitLsb0_packLsb0 bits i hi
  rw [List.map_congr_left hcong, range_map_getD_eq]

theorem zipWith_map_same {a b c d : Type} (f : a → b) (g : a → c) (h : b → c → d)
    (l : List a) :
    List.zipWith h (l.map f) (l.map g) = l.map (fun x => h (f x) (g x)) := by
  induction l with
  | nil => rfl
  | cons x xs ih => simp only [List.map_cons, List.zipWith_cons_cons, ih]


/-- **C2**: for every well-formed batch whose columns are of supported types
(fixed-width primitives, boolean, decimal, utf8/binary, date, timestamp,
list, map, struct), with any null pattern, including sliced/offset columns,
reading back the output of `write_batch` with the same compress flag yields
a batch with exactly the same values and null positions, the same column
count and the same row count; column names are not preserved (every decoded
field has an empty name and a name-stripped data type). -/
theorem codec_round_trip (b : RecordBatchM) (compress : Bool) (bs : Bytes)
    (hwf : wfBatch b = true) (hw : write_batch b compress = some bs) :
    ∃ b', read_batch bs compress = some b'
      ∧ b'.numRows = b.numRows
      ∧ b'.fields = b.fields.map (fun f => FieldT.mk [] (namelessDT (fdt f)) (fnull f))
      ∧ b'.columns.length = b.columns.length
      ∧ batchValues b' = batchValues b := by
  obtain ⟨flds, cols, nrows⟩ := b
  replace hwf : wfCols flds cols nrows = true := hwf
  replace hw : (do
      let payload ← writeBatchPayload ⟨flds, cols, nrows⟩
      some (if compress then compressM payload else payload)) = some bs := hw
  cases ha : writeArrays flds cols with
  | none =>
    have hpz : writeBatchPayload ⟨flds, cols, nrows⟩ = none := by
      show (do
        let arrs ← writeArrays flds cols
        some (write_len cols.length ++ (write_len nrows
          ++ ((flds.map (fun f => write_data_type (fdt f))).flatten
            ++ (Blaze.packLsb0 (flds.map fnull) ++ arrs))))) = none
      rw [ha]
      rfl
    rw [hpz] at hw
    exact Option.noConfusion hw
  | some arrs =>
    have hpz : writeBatchPayload ⟨flds, cols, nrows⟩
        = some (write_len cols.length ++ (write_len nrows
        ++ ((flds.map (fun f => write_data_type (fdt f))).flatten
          ++ (Blaze.packLsb0 (flds.map fnull) ++ arrs)))) := by
      show (do
        let arrs ← writeArrays flds cols
        some (write_len cols.length ++ (write_len nrows
          ++ ((flds.map (fun f => write_data_type (fdt f))).flatten
            ++ (Blaze.packLsb0 (flds.map fnull) ++ arrs))))) = _
      rw [ha]
      rfl
    rw [hpz] at hw
    simp only [osome_bind] at hw
    injection hw with hbs
    subst hbs
    have hlen : flds.length = cols.length := wfCols_length flds cols nrows hwf
    obtain ⟨cs', hra, hvcs, hlcs⟩ := readArrays_write flds cols nrows arrs [] hwf ha
    rw [List.append_nil] at hra
    have hnb : (Blaze.packLsb0 (flds.map fnull)).length = (flds.length + 7) / 8 := by
      rw [Blaze.length_packLsb0, List.length_map]
    have hrp : readBatchPayload (write_len cols.length ++ (write_len nrows
        ++ ((flds.map (fun f => write_data_type (fdt f))).flatten
          ++ (Blaze.packLsb0 (flds.map fnull) ++ arrs))))
        = some ⟨List.zipWith (fun d nb2 => FieldT.mk [] d nb2)
            (flds.map (fun f => namelessDT (fdt f)))
            (unpackBits (Blaze.packLsb0 (flds.map fnull)) cols.length),
          cs', nrows⟩ := by
      unfold readBatchPayload
      rw [read_write_len]
      simp only [osome_bind]
      rw [read_write_len]
      simp only [osome_bind]
      rw [← hlen]
      rw [readDts_write]
      simp only [osome_bind]
      have hrn := readN_append (Blaze.packLsb0 (flds.map fnull)) arrs
      rw [hnb] at hrn
      rw [hrn]
      simp only [osome_bind]
      rw [hra]
      rfl
    have hup : unpackBits (Blaze.packLsb0 (flds.map fnull)) cols.length
        = flds.map fnull := by
      rw [← hlen, show flds.length = (flds.map fnull).length
        from (List.length_map _ _).symm]
      exact unpack_pack (flds.map fnull)
    have hfields : List.zipWith (fun d nb2 => FieldT.mk [] d nb2)
        (flds.map (fun f => namelessDT (fdt f)))
        (unpackBits (Blaze.packLsb0 (flds.map fnull)) cols.length)
        = flds.map (fun f => FieldT.mk [] (namelessDT (fdt f)) (fnull f)) := by
      rw [hup]
      exact zipWith_map_same (fun f => namelessDT (fdt f)) fnull
        (fun d nb2 => FieldT.mk [] d nb2) flds
    refine ⟨⟨flds.map (fun f => FieldT.mk [] (namelessDT (fdt f)) (fnull f)),
      cs', nrows⟩, ?_, rfl, rfl, ?_, ?_⟩
    · cases compress with
      | false =>
        show readBatchPayload (write_len cols.length ++ (write_len nrows
        ++ ((flds.map (fun f => write_data_type (fdt f))).flatten
          ++ (Blaze.packLsb0 (flds.map fnull) ++ arrs)))) = some _
        rw [hrp, hfields]
      | true =>
        show (do
          let payload ← decompressM (compressM (write_len cols.length ++ (write_len nrows
        ++ ((flds.map (fun f => write_data_type (fdt f))).flatten
          ++ (Blaze.packLsb0 (flds.map fnull) ++ arrs)))))
          readBatchPayload payload) = some _
        rw [decompress_compress]
        simp only [osome_bind]
        rw [hrp, hfields]
    · exact hlcs
    · show cs'.map valuesOf = cols.map valuesOf
      exact hvcs


/-- A concrete three-column batch for the round-trip witness: a sliced int32
column with nulls, a sliced utf8 column, and a nullable list-of-int32
column. -/
def rtBatch : RecordBatchM :=
  ⟨[FieldT.mk [97] .int32 true, FieldT.mk [98] .utf8 false,
    FieldT.mk [99] (.listT (.mk [100] .int32 false)) true],
   [.prim 4 1 2 (some [true, false, true, true])
      [1, 2, 3, 4, 5, 6, 7, 8, 9, 10, 11, 12, 13, 14, 15, 16],
    .bytesA 1 2 none [0, 2, 3, 5, 6] [104, 105, 33, 120, 121, 122],
    .listA 1 2 (some [true, true, false, true]) [0, 2, 3, 4]
      (.prim 4 0 4 none [1, 0, 0, 0, 2, 0, 0, 0, 3, 0, 0, 0, 4, 0, 0, 0])],
   2⟩

/-- The bytes `write_batch` produces for the witness batch. -/
def rtBytes : Bytes := (write_batch rtBatch false).getD []

/-- Witness: the round-trip theorem applied to the concrete batch. -/
theorem codec_round_trip_witness :
    ∃ b', read_batch rtBytes false = some b'
      ∧ b'.numRows = rtBatch.numRows
      ∧ b'.fields = rtBatch.fields.map
          (fun f => FieldT.mk [] (namelessDT (fdt f)) (fnull f))
      ∧ b'.columns.length = rtBatch.columns.length
      ∧ batchValues b' = batchValues rtBatch :=
  codec_round_trip rtBatch false rtBytes (by decide) (by rfl)

end Blaze.Codec